import Mathlib

/-
Verification development for the blert raid-analyzer core.

The definitions below are a shallow embedding of the Rust sources:
  * `src/challenge.rs`  — challenge status, replay reconstruction
    (`StageInfo::new`, `StageEvents::for_tick`, `StageInfo::build_player_state`,
    `PlayerState`, `ItemDelta`),
  * `src/item.rs`       — `EquipmentSlot`,
  * `src/analysis.rs`   — the analysis engine (`Engine::load_from_directory`,
    `ProgramRun` scheduling, `Context::get_dependency_output`),
  * `src/analyzers/tob_role_analyzer.rs` — the role-assignment ordering step.

Machine integers are embedded as `Nat`/`Int`.  Where 32-bit overflow can
occur in the source (`i32` addition and subtraction in
`PlayerState::apply_equipment_delta`), it is made explicit through `wrap32`.
Rust panics (out-of-bounds indexing / slicing) are modelled as `none` /
dedicated error values, never as silently defined behaviour.
-/

namespace Blert

/-- Error kinds of the core (`src/error.rs`, plus the variants constructed in
`src/analysis.rs`). Only the variants reachable from the embedded code are
included. -/
inductive Err where
  | invalidField (field : String)
  | incompleteData
  | invalidArgument
  | failedPrecondition (detail : String)
  | dependency (name : String)
  | config (detail : String)
  deriving DecidableEq, Repr

/-- Challenge completion status (`src/challenge.rs` lines 13-19).  The Rust
enum is declared with explicit discriminants `InProgress = 0`, `Completed = 1`,
`Reset = 2`, `Wiped = 3`. -/
inductive Status where
  | inProgress
  | completed
  | reset
  | wiped
  deriving DecidableEq, Repr

/-- The discriminant each `Status` variant is declared with in the Rust enum
(`InProgress = 0, Completed = 1, Reset = 2, Wiped = 3`). -/
def Status.discriminant : Status → Int
  | .inProgress => 0
  | .completed => 1
  | .reset => 2
  | .wiped => 3

/-- Embeds `impl TryFrom<i16> for Status` (`src/challenge.rs` lines 32-44).  Note
that the source maps the wire value `2` to `Status::Wiped` and `3` to
`Status::Reset`, the opposite of the declared discriminants. -/
def Status.try_from (value : Int) : Except Err Status :=
  if value = 0 then .ok .inProgress
  else if value = 1 then .ok .completed
  else if value = 2 then .ok .wiped
  else if value = 3 then .ok .reset
  else .error (.invalidField "status")

/-- Equipment slots (`src/item.rs` lines 65-77).  The wire values 0..10 are
those accepted by `EquipmentSlot::deserialize_i32` and by the generated
protobuf enum backing `TryFrom<u64> for EquipmentSlot`. -/
inductive EquipmentSlot where
  | head
  | cape
  | amulet
  | ammo
  | weapon
  | torso
  | shield
  | legs
  | gloves
  | boots
  | ring
  deriving DecidableEq, Repr

/-- The numeric value of a slot (`EquipmentSlot as usize`). -/
def EquipmentSlot.index : EquipmentSlot → Nat
  | .head => 0
  | .cape => 1
  | .amulet => 2
  | .ammo => 3
  | .weapon => 4
  | .torso => 5
  | .shield => 6
  | .legs => 7
  | .gloves => 8
  | .boots => 9
  | .ring => 10

/-- Embeds `impl TryFrom<u64> for EquipmentSlot` (`src/item.rs` lines 151-160):
values 0..10 resolve to the corresponding slot, anything else is rejected. -/
def EquipmentSlot.of_u64 : Nat → Option EquipmentSlot
  | 0 => some .head
  | 1 => some .cape
  | 2 => some .amulet
  | 3 => some .ammo
  | 4 => some .weapon
  | 5 => some .torso
  | 6 => some .shield
  | 7 => some .legs
  | 8 => some .gloves
  | 9 => some .boots
  | 10 => some .ring
  | _ => none

/-- An item-quantity pair stored in an equipment slot
(`struct ItemQuantity(i32, i32)`, `src/challenge.rs` line 459). -/
structure ItemQuantity where
  id : Int
  quantity : Int
  deriving DecidableEq, Repr

/-- A change in the quantity of an item in an equipment slot
(`enum ItemDelta`, `src/challenge.rs` lines 646-649). -/
inductive ItemDelta where
  | add (slot : EquipmentSlot) (id : Int) (quantity : Int)
  | remove (slot : EquipmentSlot) (id : Int) (quantity : Int)
  deriving DecidableEq, Repr

/-- Embeds `ItemDelta::parse` (`src/challenge.rs` lines 660-673).  The bit
operations of the source are written with division and remainder:
`raw >> 48 & 0x1f` is `raw / 0x1000000000000 % 0x20`,
`raw >> 32 & 0xffff` is `raw / 0x100000000 % 0x10000`,
`raw & 0x7fffffff` is `raw % 0x80000000`, and
`raw & (1 << 31) != 0` is `raw / 0x80000000 % 2 = 1`. -/
def ItemDelta.parse (raw : Nat) : Except String ItemDelta :=
  match EquipmentSlot.of_u64 (raw / 0x1000000000000 % 0x20) with
  | none => .error "Invalid slot"
  | some slot =>
    let id : Int := (raw / 0x100000000 % 0x10000 : Nat)
    let quantity : Int := (raw % 0x80000000 : Nat)
    if raw / 0x80000000 % 2 = 1 then .ok (.add slot id quantity)
    else .ok (.remove slot id quantity)

/-- Modelled from the spec: the wire layout of a packed item delta
("bits 0..30 = quantity, bit 31 = added flag, bits 32..47 = item id,
bits 48..52 = equipment slot").  This is the encoder side of the round-trip
claim; it is deliberately written from the spec's words, to be compared with
`ItemDelta.parse`, which is written from the source. -/
def ItemDelta.packed : ItemDelta → Nat
  | .add slot id quantity =>
      quantity.toNat + 0x80000000 + id.toNat * 0x100000000 + slot.index * 0x1000000000000
  | .remove slot id quantity =>
      quantity.toNat + id.toNat * 0x100000000 + slot.index * 0x1000000000000

/-- A packed `u64` is valid when its fields occupy only bits 0..52 and the
slot field resolves to a real equipment slot (0..10). -/
def ItemDelta.validPacked (raw : Nat) : Prop :=
  raw < 0x20000000000000 ∧ raw / 0x1000000000000 ≤ 10

/-! ### Stage events (`src/challenge.rs` lines 185-292) -/

/-- The event types distinguished by the replay builder (`is_player_event`,
`src/challenge.rs` lines 185-192).  Every non-player event type is skipped by
`build_player_state`, so they are collapsed into `other`. -/
inductive EventType where
  | playerAttack
  | playerDeath
  | playerUpdate
  | other
  deriving DecidableEq, Repr

/-- A stage NPC record (`blert::challenge_data::StageNpc`), reduced to the
key field the replay builder reads (`room_id`). -/
structure StageNpc where
  room_id : Nat
  deriving DecidableEq, Repr

/-- The target reference inside a `PlayerAttack` payload (`attack.target`). -/
structure AttackTarget where
  room_id : Nat
  deriving DecidableEq, Repr

/-- A `player_attack` payload.  The attack kind is kept as its numeric
protobuf value; `0` stands for `PlayerAttack::Unknown`. -/
structure EventAttack where
  attack_type : Nat
  target : Option AttackTarget
  deriving DecidableEq, Repr

/-- The player payload of an event (`blert::event::Player`), restricted to
the fields read by `build_player_state`: the party index, cooldown
information, the active-prayer bitset, packed equipment deltas, and seven
optional packed skill levels. -/
structure EventPlayer where
  party_index : Nat
  off_cooldown_tick : Nat
  active_prayers : Nat
  equipment_deltas : List Nat
  attack : Option Nat
  defence : Option Nat
  strength : Option Nat
  hitpoints : Option Nat
  ranged : Option Nat
  prayer : Option Nat
  magic : Option Nat
  deriving DecidableEq, Repr

/-- A decoded stage event (`blert::Event`), restricted to the fields read by
`StageInfo::new` and `build_player_state`. -/
structure Event where
  etype : EventType
  tick : Nat
  x_coord : Int
  y_coord : Int
  player : Option EventPlayer
  player_attack : Option EventAttack
  deriving DecidableEq, Repr

/-- Stable insertion into a tick-sorted list: the new element passes every
event with a strictly smaller tick and stops in front of the first event
whose tick is greater than or equal to its own. -/
def insertByTick (e : Event) : List Event → List Event
  | [] => [e]
  | x :: xs => if x.tick < e.tick then x :: insertByTick e xs else e :: x :: xs

/-- The stable ascending sort by tick performed at the start of
`StageInfo::new` (`events.sort_by(|a, b| a.tick.cmp(&b.tick))`,
`src/challenge.rs` line 235).  A stable sort by a single key is uniquely
determined by its input, so this stable insertion sort computes the same
list as the source's stable merge sort. -/
def sortByTick : List Event → List Event
  | [] => []
  | e :: rest => insertByTick e (sortByTick rest)

/-- The event index of a stage (`struct StageEvents`, `src/challenge.rs`
lines 194-200).  The `by_type` map is omitted: none of the verified
operations read it. -/
structure StageEvents where
  total_ticks : Nat
  all : List Event
  tick_indices : List Int
  deriving DecidableEq, Repr

/-- The index-filling loop of `StageInfo::new` (`src/challenge.rs` lines
245-254, `by_type` bookkeeping omitted): walking the sorted event list with
its enumeration index `k`, the slot `tick_indices[event.tick]` is set to `k`
whenever the event's tick differs from `previous_tick`. -/
def fillTickIndices : List Event → Nat → List Int → Int → List Int
  | [], _, ti, _ => ti
  | e :: rest, k, ti, prev =>
    if (e.tick : Int) ≠ prev then
      fillTickIndices rest (k + 1) (ti.set e.tick (k : Int)) (e.tick : Int)
    else
      fillTickIndices rest (k + 1) ti prev

/-- Event-index construction of `StageInfo::new` (`src/challenge.rs` lines
233-254): sort the events by tick, let `last_tick` be the tick of the last
event (`0` when there are none), store `total_ticks = last_tick`, and build
`tick_indices` as a `last_tick + 1` vector of `-1` sentinels filled by the
enumeration loop. -/
def buildStageEvents (events : List Event) : StageEvents :=
  let sorted := sortByTick events
  let last_tick := ((sorted.getLast?).map Event.tick).getD 0
  { total_ticks := last_tick
    all := sorted
    tick_indices := fillTickIndices sorted 0 (List.replicate (last_tick + 1) (-1)) (-1) }

/-- The tick of the last event of the sorted list, `0` when there are none
(`events.last().map_or(0, |e| e.tick)`). -/
def lastTickOf (events : List Event) : Nat :=
  (((sortByTick events).getLast?).map Event.tick).getD 0

/-- The value of `x as usize` on a 64-bit target, where `x` holds a possibly
negative `i32` value. -/
def usizeOfInt (i : Int) : Nat := (i % 0x10000000000000000).toNat

/-- Embeds `StageEvents::for_tick` (`src/challenge.rs` lines 203-217).  A `none`
result models a Rust panic: an out-of-bounds `tick_indices` access, or a
slice `all[start..end]` with `start > end` or `end > all.len()` (after the
`as usize` casts).  The source returns the slice between the start index of
`tick` and the start index of `tick + 1`, with an early `&[]` return when the
start slot holds the `-1` sentinel. -/
def StageEvents.for_tick (se : StageEvents) (tick : Nat) : Option (List Event) :=
  (se.tick_indices[tick]?).bind (fun start =>
    if start < 0 then some []
    else
      (if se.total_ticks < tick then some (se.all.length : Int)
       else se.tick_indices[tick + 1]?).bind (fun endVal =>
        let s := usizeOfInt start
        let e := usizeOfInt endVal
        if s ≤ e ∧ e ≤ se.all.length then some ((se.all.drop s).take (e - s))
        else none))

/-- A minimal event carrying no player payload, used for concrete inputs. -/
def eventAt (t : Nat) : Event :=
  { etype := .other, tick := t, x_coord := 0, y_coord := 0,
    player := none, player_attack := none }

/-! ### Player state (`src/challenge.rs` lines 427-620) -/

/-- Embeds `enum AttackState` (`src/challenge.rs` lines 434-438).  The attack of a
`PlayerAttacked` is kept as its numeric protobuf value. -/
inductive AttackState where
  | attacked (attack : Nat) (target : Option StageNpc)
  | onCooldown (ticks : Nat)
  | idle
  deriving DecidableEq, Repr

/-- Embeds `enum DeathState` (`src/challenge.rs` lines 441-445). -/
inductive DeathState where
  | alive
  | justDied
  | dead
  deriving DecidableEq, Repr

/-- The value of `x as i16` for a `u32` value `x`: the low 16 bits in two's
complement. -/
def i16OfBits (n : Nat) : Int :=
  if n % 0x10000 < 0x8000 then ((n % 0x10000 : Nat) : Int)
  else ((n % 0x10000 : Nat) : Int) - 0x10000

/-- Embeds `struct SkillLevel` (`src/challenge.rs` lines 622-626). -/
structure SkillLevel where
  base : Int
  current : Int
  deriving DecidableEq, Repr

/-- Embeds `SkillLevel::from_raw` (`src/challenge.rs` lines 629-634):
`base = raw as i16`, `current = (raw >> 16) as i16`. -/
def SkillLevel.from_raw (raw : Nat) : SkillLevel :=
  { base := i16OfBits raw, current := i16OfBits (raw / 0x10000) }

/-- Embeds `struct PlayerStats` (`src/challenge.rs` lines 447-456), all fields
defaulting to `None`. -/
structure PlayerStats where
  attack : Option SkillLevel := none
  defence : Option SkillLevel := none
  strength : Option SkillLevel := none
  hitpoints : Option SkillLevel := none
  ranged : Option SkillLevel := none
  prayer : Option SkillLevel := none
  magic : Option SkillLevel := none
  deriving DecidableEq, Repr

/-- Embeds `struct PlayerState` (`src/challenge.rs` lines 497-506).  The prayer set
is its raw `u64` bitset; equipment is the 11-slot array. -/
structure PlayerState where
  tick : Nat
  attack_state : AttackState
  death_state : DeathState
  pos_x : Int
  pos_y : Int
  stats : PlayerStats
  prayers : Nat
  equipment : List (Option ItemQuantity)
  deriving DecidableEq, Repr

/-- Two's-complement wrap-around of 32-bit arithmetic: the value of an `i32`
addition or subtraction in release-mode Rust. -/
def wrap32 (n : Int) : Int := (n + 0x80000000) % 0x100000000 - 0x80000000

/-- Embeds `PlayerState::next_tick` (`src/challenge.rs` lines 545-562): cooldowns
count down and expire at 1, any other attack state resets to idle;
`JustDied` becomes `Dead` and anything else `Alive`; position, prayers and
equipment are carried; stats reset to the all-`None` default. -/
def PlayerState.next_tick (s : PlayerState) : PlayerState :=
  { tick := s.tick + 1
    attack_state :=
      match s.attack_state with
      | .onCooldown 1 => .idle
      | .onCooldown ticks => .onCooldown (ticks - 1)
      | _ => .idle
    death_state :=
      match s.death_state with
      | .justDied => .dead
      | _ => .alive
    pos_x := s.pos_x
    pos_y := s.pos_y
    stats := {}
    prayers := s.prayers
    equipment := s.equipment }

/-- Embeds `PlayerState::apply_equipment_delta` (`src/challenge.rs` lines 564-595).
The source's `i32` `+=` and `-=` are embedded as wrapping 32-bit
operations. -/
def PlayerState.apply_equipment_delta (s : PlayerState) : ItemDelta → PlayerState
  | .add slot id quantity =>
    match (s.equipment[slot.index]?).join with
    | some item =>
      if item.id = id then
        { s with equipment :=
            s.equipment.set slot.index (some ⟨item.id, wrap32 (item.quantity + quantity)⟩) }
      else { s with equipment := s.equipment.set slot.index (some ⟨id, quantity⟩) }
    | none => { s with equipment := s.equipment.set slot.index (some ⟨id, quantity⟩) }
  | .remove slot id quantity =>
    match (s.equipment[slot.index]?).join with
    | some item =>
      if item.id = id then
        if item.quantity ≤ quantity then
          { s with equipment := s.equipment.set slot.index none }
        else
          { s with equipment :=
              s.equipment.set slot.index (some ⟨item.id, wrap32 (item.quantity - quantity)⟩) }
      else { s with equipment := s.equipment.set slot.index none }
    | none => { s with equipment := s.equipment.set slot.index none }

/-- Embeds `PlayerState::apply_stats` (`src/challenge.rs` lines 597-619): each of
the seven skills is overwritten only when the update provides a raw value. -/
def PlayerState.apply_stats (s : PlayerState) (player : EventPlayer) : PlayerState :=
  { s with stats :=
    { attack := match player.attack with
        | some raw => some (SkillLevel.from_raw raw)
        | none => s.stats.attack
      defence := match player.defence with
        | some raw => some (SkillLevel.from_raw raw)
        | none => s.stats.defence
      strength := match player.strength with
        | some raw => some (SkillLevel.from_raw raw)
        | none => s.stats.strength
      hitpoints := match player.hitpoints with
        | some raw => some (SkillLevel.from_raw raw)
        | none => s.stats.hitpoints
      ranged := match player.ranged with
        | some raw => some (SkillLevel.from_raw raw)
        | none => s.stats.ranged
      prayer := match player.prayer with
        | some raw => some (SkillLevel.from_raw raw)
        | none => s.stats.prayer
      magic := match player.magic with
        | some raw => some (SkillLevel.from_raw raw)
        | none => s.stats.magic } }

/-- A sample player state used to witness the equipment-delta semantics. -/
def sampleState : PlayerState :=
  { tick := 0
    attack_state := .idle
    death_state := .alive
    pos_x := 0
    pos_y := 0
    stats := {}
    prayers := 0
    equipment := (List.replicate 11 none).set 0 (some ⟨7, 5⟩) }

/-! ### Per-player reconstruction (`StageInfo::build_player_state`,
`src/challenge.rs` lines 294-390) -/

/-- Failures of `build_player_state`: the `InvalidField` error raised for a
malformed equipment delta, and `panicked`, which models a Rust panic caused
by an out-of-bounds `for_tick` slice. -/
inductive BuildError where
  | invalidField (detail : String)
  | panicked
  deriving DecidableEq, Repr

/-- Embeds `is_player_event` (`src/challenge.rs` lines 185-192). -/
def is_player_event (e : Event) : Bool :=
  match e.etype with
  | .playerAttack | .playerDeath | .playerUpdate => true
  | .other => false

/-- Embeds `npcs.get(&room_id)` over the stage NPC map, embedded as an association
list keyed by room id. -/
def lookupNpc (npcs : List (Nat × StageNpc)) (room_id : Nat) : Option StageNpc :=
  (npcs.find? (fun p => p.1 == room_id)).map Prod.snd

/-- The numeric value standing for `PlayerAttack::Unknown`. -/
def unknownAttack : Nat := 0

/-- The delta application of one `PlayerUpdate`
(`player.equipment_deltas.iter().map(ItemDelta::try_from).try_for_each(..)`,
`src/challenge.rs` lines 364-377): deltas apply left to right and the first
malformed delta aborts with an `InvalidField` error (whose message carries
the username and tick in the source). -/
def applyDeltas (s : PlayerState) : List Nat → Except BuildError PlayerState
  | [] => .ok s
  | d :: rest =>
    match ItemDelta.parse d with
    | .ok delta => applyDeltas (s.apply_equipment_delta delta) rest
    | .error _ => .error (.invalidField "equipment_deltas")

/-- Processing of one event for the player at party position `index` at tick
`t` (the filter and `try_for_each` body of `build_player_state`,
`src/challenge.rs` lines 320-380).  Non-player events, events without a
player payload (logged and skipped in the source), and events of other
party members leave the state unchanged. -/
def applyEvent (npcs : List (Nat × StageNpc)) (index : Nat) (t : Nat)
    (st : PlayerState) (e : Event) : Except BuildError PlayerState :=
  match is_player_event e, e.player with
  | true, some player =>
    if player.party_index = index then
      match e.etype with
      | .playerAttack =>
        .ok { st with attack_state :=
          match e.player_attack with
          | some atk =>
            .attacked atk.attack_type (atk.target.bind (fun tg => lookupNpc npcs tg.room_id))
          | none => .attacked unknownAttack none }
      | .playerDeath => .ok { st with death_state := .justDied }
      | .playerUpdate =>
        let st1 := if st.attack_state = .idle ∧ t < player.off_cooldown_tick then
            { st with attack_state := .onCooldown (player.off_cooldown_tick - t) }
          else st
        let st2 := { st1 with pos_x := e.x_coord, pos_y := e.y_coord }
        let st3 := st2.apply_stats player
        let st4 := { st3 with prayers := player.active_prayers }
        applyDeltas st4 player.equipment_deltas
      | .other => .ok st
    else .ok st
  | _, _ => .ok st

/-- Left-to-right processing of the events of one tick (the `try_for_each`
over `events.for_tick(tick)`). -/
def applyEvents (npcs : List (Nat × StageNpc)) (index : Nat) (t : Nat)
    (st : PlayerState) : List Event → Except BuildError PlayerState
  | [] => .ok st
  | e :: rest =>
    match applyEvent npcs index t st e with
    | .ok st' => applyEvents npcs index t st' rest
    | .error err => .error err

/-- The fresh state used at a tick with no previous state
(`src/challenge.rs` lines 309-317). -/
def initialState (t : Nat) : PlayerState :=
  { tick := t
    attack_state := .idle
    death_state := .alive
    pos_x := 0
    pos_y := 0
    stats := {}
    prayers := 0
    equipment := List.replicate 11 none }

/-- Reconstruction of one tick: start from the previous state via
`next_tick` (or the fresh initial state), then fold the tick's events
(`src/challenge.rs` lines 306-380). -/
def procTick (npcs : List (Nat × StageNpc)) (index : Nat) (t : Nat)
    (last : Option PlayerState) (evts : List Event) : Except BuildError PlayerState :=
  applyEvents npcs index t
    (match last with
     | some s => s.next_tick
     | none => initialState t) evts

/-- The per-tick loop of `build_player_state` for one player, with `n`
remaining ticks starting at `t`.  A `for_tick` panic surfaces as
`panicked`. -/
def buildGo (se : StageEvents) (npcs : List (Nat × StageNpc)) (index : Nat) :
    Nat → Nat → Option PlayerState → Except BuildError (List PlayerState)
  | 0, _, _ => .ok []
  | n + 1, t, last =>
    match se.for_tick t with
    | none => .error .panicked
    | some evts =>
      match procTick npcs index t last evts with
      | .error err => .error err
      | .ok s =>
        match buildGo se npcs index n (t + 1) (some s) with
        | .error err => .error err
        | .ok rest => .ok (s :: rest)

/-- Embeds `StageInfo::build_player_state` for the party member at position
`index`: the reconstructed state at every tick `0 .. total_ticks`.  The
source stores these in a `Vec<Option<PlayerState>>` of length `total_ticks`
whose every slot is assigned `Some` by the loop; the list returned here is
the sequence of those states. -/
def build_player_state_for (events : List Event) (npcs : List (Nat × StageNpc))
    (index : Nat) : Except BuildError (List PlayerState) :=
  let se := buildStageEvents events
  buildGo se npcs index se.total_ticks 0 none

/-- A player-death event at tick `t` for the party member at `index`. -/
def deathEventAt (t : Nat) (index : Nat) : Event :=
  { etype := .playerDeath, tick := t, x_coord := 0, y_coord := 0,
    player := some
      { party_index := index, off_cooldown_tick := 0, active_prayers := 0,
        equipment_deltas := [], attack := none, defence := none, strength := none,
        hitpoints := none, ranged := none, prayer := none, magic := none },
    player_attack := none }

/-- A concrete stage log: player-death events for party member 0 at ticks
0, 1 and 2. -/
def cexEvents : List Event := [deathEventAt 0 0, deathEventAt 1 0, deathEventAt 2 0]

/-- Embeds `true` exactly for a `PlayerDeath` event whose player payload belongs to
party position `index`: the events that set `death_state = JustDied`. -/
def isDeathFor (index : Nat) (e : Event) : Bool :=
  (e.etype == .playerDeath) &&
    (match e.player with
     | some p => p.party_index == index
     | none => false)

/-- A concrete stage log for the witness: a death at tick 0, non-player
events at ticks 1 and 2. -/
def witEvents : List Event := [deathEventAt 0 0, eventAt 1, eventAt 2]

/-- The reconstructed states of `witEvents` for party member 0. -/
def witS0 : PlayerState :=
  { tick := 0, attack_state := .idle, death_state := .justDied, pos_x := 0, pos_y := 0,
    stats := {}, prayers := 0, equipment := List.replicate 11 none }

/-- The tick-1 state of `witEvents`: the death has settled to `Dead`. -/
def witS1 : PlayerState :=
  { tick := 1, attack_state := .idle, death_state := .dead, pos_x := 0, pos_y := 0,
    stats := {}, prayers := 0, equipment := List.replicate 11 none }

/-! ### Role assignment (`src/analyzers/tob_role_analyzer.rs`) -/

/-- The Theatre of Blood meta roles (`enum Role`,
`src/analyzers/tob_role_analyzer.rs` lines 19-27). -/
inductive Role where
  | solo
  | duoMage
  | duoRanger
  | mage
  | ranger
  | melee
  | meleeFreeze
  deriving DecidableEq, Repr

/-- Embeds `struct PrimaryRole(String, Role)`
(`src/analyzers/tob_role_analyzer.rs` line 106). -/
structure PrimaryRole where
  player : String
  role : Role
  deriving DecidableEq, Repr

/-- Stable insertion for `sort_by_key(|(_, w)| Reverse(w))`: an entry passes
every entry with a strictly greater weak-match count and stops in front of
the first entry whose count is less than or equal to its own. -/
def insertByWeakDesc (p : String × Nat) : List (String × Nat) → List (String × Nat)
  | [] => [p]
  | x :: xs => if p.2 < x.2 then x :: insertByWeakDesc p xs else p :: x :: xs

/-- The `unassigned_players` sorting step of
`TobRoleAnalyzer::find_role_matches`
(`ctx.unassigned_players.sort_by_key(|(_, weak_matches)| Reverse(*weak_matches))`,
`src/analyzers/tob_role_analyzer.rs` lines 325-326): a stable sort by
`Reverse(weak_matches)`, i.e. by descending weak-match count.  A stable sort
by a single key is uniquely determined by its input, so this stable
insertion sort computes the same list as Rust's stable `sort_by_key`. -/
def sortUnassignedPlayers : List (String × Nat) → List (String × Nat)
  | [] => []
  | p :: rest => insertByWeakDesc p (sortUnassignedPlayers rest)

/-- The weak-match test of `try_assign_roles`
(`weak_matches.get(&role).map_or(false, |players| players.contains(&player))`,
`src/analyzers/tob_role_analyzer.rs` lines 456-458). -/
def weakContains (weak_matches : List (Role × List String)) (role : Role)
    (player : String) : Bool :=
  match (weak_matches.find? (fun q => q.1 == role)).map Prod.snd with
  | some players => players.contains player
  | none => false

/-- The candidate loop of `try_assign_roles` (`for i in 0..roles_to_assign.len()`,
`src/analyzers/tob_role_analyzer.rs` lines 453-484): try each candidate in
order, returning the first successful assignment, backtracking past `none`
results, and propagating errors. -/
def firstSuccess (f : Nat → Except Err (Option (List PrimaryRole))) :
    List Nat → Except Err (Option (List PrimaryRole))
  | [] => .ok none
  | i :: is =>
    match f i with
    | .ok (some result) => .ok (some result)
    | .ok none => firstSuccess f is
    | .error e => .error e

/-- Embeds `TobRoleAnalyzer::try_assign_roles`
(`src/analyzers/tob_role_analyzer.rs` lines 434-487).  The player examined
at each depth is `unassigned_players[roles_assigned.len()]` (its absence
models the Rust index panic, unreachable under the caller's length assert).
With no roles left, the collected assignment is returned; with exactly one
role left, it is unconditionally given to the current player.  Otherwise
each role index `i` is tried in order: after `roles_to_assign.swap(0, i)`
the recursion proceeds on the slice `[1..]`, which equals the original list
with the element at `i` replaced by the head and the head removed.  `fuel`
bounds the recursion depth by the number of roles. -/
def tryAssignRoles (weak_matches : List (Role × List String))
    (unassigned_players : List (String × Nat)) :
    Nat → List Role → List PrimaryRole → Except Err (Option (List PrimaryRole))
  | _, [], roles_assigned => .ok (some roles_assigned)
  | fuel, r :: roles', roles_assigned =>
    match unassigned_players[roles_assigned.length]? with
    | none => .error .invalidArgument
    | some pw =>
      if roles' = [] then .ok (some (roles_assigned ++ [⟨pw.1, r⟩]))
      else
        match fuel with
        | 0 => .error .invalidArgument
        | fuel' + 1 =>
          firstSuccess (fun i =>
            match (r :: roles')[i]? with
            | none => .error .invalidArgument
            | some role =>
              if weakContains weak_matches role pw.1 then
                tryAssignRoles weak_matches unassigned_players fuel'
                  (((r :: roles').set i r).drop 1)
                  (roles_assigned ++ [⟨pw.1, role⟩])
              else .ok none)
            (List.range (r :: roles').length)

/-! ### Analysis engine (`src/analysis.rs`) -/

/-- An analyzer definition of a program config (`struct AnalyzerDefinition`,
`src/analysis.rs` lines 480-484): the implementation tag and the optional
dependency list.  The opaque per-analyzer `config` blob is consumed only by
`init_analyzer` constructors and is not modelled. -/
structure AnalyzerDefinition where
  «implementation» : String
  dependencies : Option (List String)
  deriving DecidableEq, Repr

/-- A program config (`struct ProgramConfig`, `src/analysis.rs` lines
468-472): the program name and the named analyzer definitions (the source's
`HashMap`, embedded as an association list with distinct keys). -/
structure ProgramConfig where
  name : String
  analyzers : List (String × AnalyzerDefinition)
  deriving DecidableEq, Repr

/-- The declared dependencies of analyzer `name` within `prog`
(`program.analyzers[&name].dependencies`, defaulting to no dependencies
when the list is absent). -/
def declaredDeps (prog : ProgramConfig) (name : String) : List String :=
  match (prog.analyzers.find? (fun q => q.1 == name)).map Prod.snd with
  | some d => d.dependencies.getD []
  | none => []

/-- Embeds `HashMap::insert` on the engine's program table, embedded as an
association list: an existing binding of the key is replaced. -/
def insertTable (table : List (String × ProgramConfig)) (key : String)
    (p : ProgramConfig) : List (String × ProgramConfig) :=
  (table.filter (fun q => q.1 ≠ key)) ++ [(key, p)]

/-- Embeds `HashMap::get` on the engine's program table. -/
def lookupTable (table : List (String × ProgramConfig)) (key : String) :
    Option ProgramConfig :=
  (table.find? (fun q => q.1 == key)).map Prod.snd

/-- Embeds `Engine::load_from_directory` (`src/analysis.rs` lines 327-355), with
the directory walk and TOML decoding (external collaborators) abstracted:
given the sequence of successfully decoded program configs, each is
inserted into the engine's program table under its name.  The source
performs no validation of implementations, dependency names, or dependency
cycles between decoding and insertion. -/
def load_from_directory (configs : List ProgramConfig) :
    List (String × ProgramConfig) :=
  configs.foldl (fun table p => insertTable table p.name p) []

/-- A program whose two analyzers depend on each other. -/
def cyclicProgram : ProgramConfig :=
  { name := "cyclic"
    analyzers :=
      [("a", { «implementation» := "GearAnalyzer", dependencies := some ["b"] }),
       ("b", { «implementation» := "GearAnalyzer", dependencies := some ["a"] })] }

/-! ### Program-run scheduling (`ProgramRun`, `src/analysis.rs` lines
158-293).  The coordinator is a single cooperative task: between two
`notify_rx.recv()` awaits it inserts one completed record, unblocks, and
dispatches everything pending, so its observable behaviour is the step
relation below.  `pending` is drained by `schedule_all_pending` within the
same step, so it is always empty between steps and carries no state. -/

/-- The record retained in `completed` for a finished analyzer
(`struct AnalyzerRun<A>`, `src/analysis.rs` lines 107-112): the logical
name, the implementation tag standing for the concrete type `AnalyzerRun<A>`
that `downcast_ref` matches on, and the computed output (abstracted to a
numeric value). -/
structure AnalyzerRunRec where
  analyzer_name : String
  «implementation» : String
  output : Option Nat
  deriving DecidableEq, Repr

/-- Embeds `Context::get_dependency_output::<A>` (`src/analysis.rs` lines 77-88):
scan the completed map's records for one downcasting to implementation
`impl` and return its output; `find_map` skips records whose output is
`None`. -/
def get_dependency_output (completed : List AnalyzerRunRec) (impl : String) :
    Option Nat :=
  completed.findSome? (fun r => if r.«implementation» = impl then r.output else none)

/-- The observable scheduler events of a run: an analyzer being sent to the
worker queue (`dispatch_tx.send`), and a completed record being inserted
into `completed`. -/
inductive SchedulerEvent where
  | dispatch (name : String)
  | insert (name : String)
  deriving DecidableEq, Repr

/-- Coordinator state of a `ProgramRun` (`src/analysis.rs` lines 158-171):
the blocked analyzers, the analyzers dispatched and not yet completed, the
shared completed map, the failure flag, and the trace of observable
events. -/
structure RunState where
  blocked : List String
  running : List String
  completed : List AnalyzerRunRec
  failed : Bool
  trace : List SchedulerEvent
  deriving DecidableEq, Repr

/-- The keys of the completed map. -/
def completedNames (s : RunState) : List String :=
  s.completed.map (·.analyzer_name)

/-- The `runnable` test of `ProgramRun::unblock_analyzers`
(`src/analysis.rs` lines 245-248): every declared dependency must be a key
of `completed`; analyzers without a dependency list are runnable. -/
def runnable (prog : ProgramConfig) (completed : List String) (name : String) : Bool :=
  match (prog.analyzers.find? (fun q => q.1 == name)).map Prod.snd with
  | some d =>
    match d.dependencies with
    | some ds => ds.all (fun dep => completed.contains dep)
    | none => true
  | none => true

/-- Embeds `unblock_analyzers` (`src/analysis.rs` lines 238-259): split the
blocked set into the still-blocked part and the newly runnable part (which
the source moves into `pending`, to be dispatched by the following
`schedule_all_pending`). -/
def unblock (prog : ProgramConfig) (completed : List String) (blocked : List String) :
    List String × List String :=
  (blocked.filter (fun n => ! runnable prog completed n),
   blocked.filter (fun n => runnable prog completed n))

/-- The implementation tag the record for `name` is registered with. -/
def implOf (prog : ProgramConfig) (name : String) : String :=
  match (prog.analyzers.find? (fun q => q.1 == name)).map Prod.snd with
  | some d => d.«implementation»
  | none => ""

/-- Embeds `handle_completed` followed by `schedule_all_pending`
(`src/analysis.rs` lines 286-292 and 261-284): insert the record of the
finished analyzer (its `run` set `output = Some(..)`), unblock against the
enlarged completed map, and dispatch every newly unblocked analyzer. -/
def stepComplete (prog : ProgramConfig) (s : RunState) (name impl : String)
    (out : Nat) : RunState :=
  let completed' := s.completed ++ [⟨name, impl, some out⟩]
  let cn := completed'.map (·.analyzer_name)
  let ub := unblock prog cn s.blocked
  { blocked := ub.1
    running := (s.running.erase name) ++ ub.2
    completed := completed'
    failed := false
    trace := s.trace ++ SchedulerEvent.insert name :: ub.2.map SchedulerEvent.dispatch }

/-- The coordinator state after `initialize_analyzers` and the first
`schedule_all_pending` (`ProgramRun::run`, `src/analysis.rs` lines
205-207): every analyzer starts blocked; analyzers with no unmet
dependencies unblock against the empty completed map and are dispatched.
(When `init_analyzer` fails for some definition the run aborts before
anything is dispatched; that degenerate run has an empty trace and is not
modelled.) -/
def initState (prog : ProgramConfig) : RunState :=
  let ub := unblock prog [] (prog.analyzers.map Prod.fst)
  { blocked := ub.1
    running := ub.2
    completed := []
    failed := false
    trace := ub.2.map SchedulerEvent.dispatch }

/-- One coordinator round of `ProgramRun::run` (`src/analysis.rs` lines
209-219): await one worker response for a dispatched analyzer.  The
worker's `AnalyzerRun::run` outcome is abstracted by the `analyze` oracle:
on success the analyzer is inserted into `completed` with its output and
the freshly unblocked analyzers are dispatched; on failure the run stops
with an error and nothing is inserted. -/
inductive Step (prog : ProgramConfig) (analyze : String → Option Nat) :
    RunState → RunState → Prop where
  | complete {s : RunState} {name : String} {out : Nat} :
      s.failed = false → name ∈ s.running → analyze name = some out →
      Step prog analyze s (stepComplete prog s name (implOf prog name) out)
  | failure {s : RunState} {name : String} :
      s.failed = false → name ∈ s.running → analyze name = none →
      Step prog analyze s { s with failed := true }

/-- The coordinator states a program run can reach. -/
def Reachable (prog : ProgramConfig) (analyze : String → Option Nat)
    (s : RunState) : Prop :=
  Relation.ReflTransGen (Step prog analyze) (initState prog) s

/-- The coordinator invariant: (i) every dispatch in the trace is preceded
by an insertion of each of the dispatched analyzer's declared dependencies;
(ii) the completed names are exactly the inserted names; (iii) every
completed record holds a computed output. -/
structure RunInvariant (prog : ProgramConfig) (s : RunState) : Prop where
  dispatch_after_deps :
    ∀ (i : Nat) (name : String), s.trace[i]? = some (SchedulerEvent.dispatch name) →
      ∀ dep ∈ declaredDeps prog name,
        ∃ j : Nat, j < i ∧ s.trace[j]? = some (SchedulerEvent.insert dep)
  completed_iff_inserted :
    ∀ dep : String, dep ∈ completedNames s ↔
      ∃ j : Nat, s.trace[j]? = some (SchedulerEvent.insert dep)
  outputs : ∀ r ∈ s.completed, ∃ v, r.output = some v

/-- A demo program: analyzer "a" depends on "b". -/
def demoProgram : ProgramConfig :=
  { name := "demo"
    analyzers :=
      [("a", { «implementation» := "TobRoleAnalyzer", dependencies := some ["b"] }),
       ("b", { «implementation» := "GearAnalyzer", dependencies := none })] }

/-- A run in which every analyzer succeeds with output 0. -/
def demoOracle : String → Option Nat := fun _ => some 0

/-- The demo state after "b" completes: its record is inserted and "a" is
dispatched. -/
def demoState : RunState :=
  stepComplete demoProgram (initState demoProgram) "b" (implOf demoProgram "b") 0

/-! ### Theorems -/

/-- For every slot value 0..10, `of_u64` succeeds and inverts `index`. -/
theorem EquipmentSlot.of_u64_index {n : Nat} (h : n ≤ 10) :
    ∃ s : EquipmentSlot, EquipmentSlot.of_u64 n = some s ∧ s.index = n := by
  interval_cases n <;> exact ⟨_, rfl, rfl⟩

/-- Claim C6, counterexample: the claim states that wire value 2 maps to
`Reset` and 3 to `Wiped`; in the source, `Status::try_from(2)` returns
`Wiped` and `Status::try_from(3)` returns `Reset`, even though the `Status`
enum itself is declared with discriminants `Reset = 2` and `Wiped = 3`. -/
theorem status_try_from_swaps_reset_wiped :
    Status.try_from 2 = .ok .wiped ∧ Status.wiped ≠ Status.reset ∧
      Status.try_from 3 = .ok .reset ∧
      Status.discriminant .reset = 2 ∧ Status.discriminant .wiped = 3 :=
  ⟨rfl, by decide, rfl, rfl, rfl⟩

/-- Claim C6, amended: `Status::try_from` maps the wire values 0, 1, 2, 3 to
`InProgress`, `Completed`, `Wiped`, `Reset` in that order, and returns an
`InvalidField("status")` error for every value outside 0..3. -/
theorem status_try_from_spec :
    Status.try_from 0 = .ok .inProgress ∧ Status.try_from 1 = .ok .completed ∧
      Status.try_from 2 = .ok .wiped ∧ Status.try_from 3 = .ok .reset ∧
      ∀ value : Int, value < 0 ∨ 3 < value →
        Status.try_from value = .error (.invalidField "status") := by
  refine ⟨rfl, rfl, rfl, rfl, fun v hv => ?_⟩
  unfold Status.try_from
  rw [if_neg (by omega), if_neg (by omega), if_neg (by omega), if_neg (by omega)]

/-- Claim C6, witness for the amended theorem at the out-of-range value 4. -/
theorem status_try_from_spec_witness :
    Status.try_from 4 = .error (.invalidField "status") :=
  status_try_from_spec.2.2.2.2 4 (by omega)

/-- Claim C5: for every valid packed `u64` value `p` (fields within bits
0..52, slot field resolving to a real slot), decoding `p` with
`ItemDelta::parse` and re-packing the resulting (slot, id, added, qty) tuple
according to the spec's wire layout yields `p` again. -/
theorem item_delta_round_trip (raw : Nat) (h : ItemDelta.validPacked raw) :
    (ItemDelta.parse raw).map ItemDelta.packed = .ok raw := by
  obtain ⟨hlt, hslot⟩ := h
  have hmod : raw / 0x1000000000000 % 0x20 = raw / 0x1000000000000 := by omega
  obtain ⟨s, hs, hidx⟩ := EquipmentSlot.of_u64_index hslot
  simp only [ItemDelta.parse, hmod, hs]
  split_ifs with hb <;>
    simp only [Except.map, ItemDelta.packed, hidx, Int.toNat_ofNat] <;>
    exact congrArg Except.ok (by omega)

/-- Claim C5, witness: the round trip at the concrete packed value
`0x0003_2bd6_8000_718d` (slot Ammo, id 11222, added, quantity 29069). -/
theorem item_delta_round_trip_witness :
    (ItemDelta.parse 0x32bd68000718d).map ItemDelta.packed = .ok 0x32bd68000718d :=
  item_delta_round_trip 0x32bd68000718d ⟨by decide, by decide⟩

theorem insertByTick_perm (e : Event) (l : List Event) :
    (insertByTick e l).Perm (e :: l) := by
  induction l with
  | nil => exact List.Perm.refl _
  | cons x xs ih =>
    unfold insertByTick
    split_ifs
    · exact (ih.cons x).trans (List.Perm.swap e x xs)
    · exact List.Perm.refl _

theorem sortByTick_perm (l : List Event) : (sortByTick l).Perm l := by
  induction l with
  | nil => exact List.Perm.refl _
  | cons x xs ih => exact (insertByTick_perm x (sortByTick xs)).trans (ih.cons x)

theorem insertByTick_pairwise {e : Event} {l : List Event}
    (h : l.Pairwise (fun a b => a.tick ≤ b.tick)) :
    (insertByTick e l).Pairwise (fun a b => a.tick ≤ b.tick) := by
  induction l with
  | nil => simp [insertByTick]
  | cons x xs ih =>
    rcases h with - | ⟨hx, hxs⟩
    unfold insertByTick
    split_ifs with hc
    · refine List.Pairwise.cons (fun b hb => ?_) (ih hxs)
      rcases List.mem_cons.mp ((insertByTick_perm e xs).mem_iff.mp hb) with rfl | hb'
      · omega
      · exact hx b hb'
    · refine List.Pairwise.cons (fun b hb => ?_) (List.Pairwise.cons hx hxs)
      rcases List.mem_cons.mp hb with rfl | hb'
      · omega
      · have := hx b hb'
        omega

theorem sortByTick_pairwise (l : List Event) :
    (sortByTick l).Pairwise (fun a b => a.tick ≤ b.tick) := by
  induction l with
  | nil => exact List.Pairwise.nil
  | cons x xs ih => exact insertByTick_pairwise ih

theorem fillTickIndices_length (l : List Event) (k : Nat) (ti : List Int) (prev : Int) :
    (fillTickIndices l k ti prev).length = ti.length := by
  induction l generalizing k ti prev with
  | nil => rfl
  | cons x xs ih =>
    unfold fillTickIndices
    split_ifs
    · rw [ih, List.length_set]
    · rw [ih]

/-- In a tick-sorted list, every event's tick is bounded by the last
event's tick. -/
theorem tick_le_getLast {l : List Event}
    (hs : l.Pairwise (fun a b => a.tick ≤ b.tick)) {e : Event} (he : e ∈ l) :
    e.tick ≤ ((l.getLast?.map Event.tick).getD 0) := by
  induction l with
  | nil => cases he
  | cons x xs ih =>
    rcases hs with - | ⟨hx, hxs⟩
    cases xs with
    | nil =>
      rcases List.mem_cons.mp he with rfl | h
      · simp [List.getLast?]
      · cases h
    | cons y ys =>
      rw [List.getLast?_cons_cons]
      rcases List.mem_cons.mp he with rfl | h
      · have hg : (y :: ys).getLast? = some ((y :: ys).getLast (by simp)) :=
          List.getLast?_eq_getLast _ _
        have hmem : (y :: ys).getLast (by simp) ∈ y :: ys := List.getLast_mem _
        have := hx _ hmem
        rw [hg]
        simpa using this
      · exact ih hxs h

/-- Characterization of the index-filling loop on a tick-sorted input: the
slot for tick `t` receives `k` plus the position of the first event with
tick `t` whenever such an event exists in the segment still to be processed
(`prev < t`), and is left untouched otherwise. -/
theorem fillTickIndices_getElem (l : List Event) (k : Nat) (ti : List Int) (prev : Int)
    (hsort : l.Pairwise (fun a b => a.tick ≤ b.tick))
    (hprev : ∀ e ∈ l, prev ≤ (e.tick : Int))
    (hbound : ∀ e ∈ l, e.tick < ti.length)
    (t : Nat) :
    (fillTickIndices l k ti prev)[t]? =
      if (∃ e ∈ l, e.tick = t) ∧ prev < (t : Int) then
        some ((k : Int) + ((l.takeWhile (fun e => e.tick < t)).length : Int))
      else ti[t]? := by
  induction l generalizing k ti prev with
  | nil => simp [fillTickIndices]
  | cons x xs ih =>
    rcases hsort with - | ⟨hx, hxs⟩
    have hxmem : x ∈ x :: xs := List.mem_cons_self x xs
    unfold fillTickIndices
    by_cases hne : (x.tick : Int) ≠ prev
    · -- A fresh tick: `prev < x.tick`, the slot for `x.tick` is set to `k`.
      rw [if_pos hne]
      have hplt : prev < (x.tick : Int) := lt_of_le_of_ne (hprev x hxmem) (Ne.symm hne)
      have hprev' : ∀ e ∈ xs, (x.tick : Int) ≤ (e.tick : Int) := fun e he => by
        exact_mod_cast hx e he
      have hbound' : ∀ e ∈ xs, e.tick < (ti.set x.tick (k : Int)).length := fun e he => by
        rw [List.length_set]
        exact hbound e (List.mem_cons_of_mem x he)
      rw [ih (k + 1) (ti.set x.tick (k : Int)) (x.tick : Int) hxs hprev' hbound']
      by_cases hc : (∃ e ∈ xs, e.tick = t) ∧ (x.tick : Int) < (t : Int)
      · -- `t` occurs strictly later than `x.tick`.
        rw [if_pos hc]
        have hxt : x.tick < t := by exact_mod_cast hc.2
        obtain ⟨e0, he0, he0t⟩ := hc.1
        rw [if_pos ⟨⟨e0, List.mem_cons_of_mem x he0, he0t⟩, lt_trans hplt hc.2⟩]
        have htw : List.takeWhile (fun e => decide (e.tick < t)) (x :: xs)
            = x :: List.takeWhile (fun e => decide (e.tick < t)) xs := by
          simp [List.takeWhile_cons, hxt]
        rw [htw]
        exact congrArg some (by simp only [List.length_cons]; push_cast; ring)
      · rw [if_neg hc]
        by_cases hxeq : t = x.tick
        · subst hxeq
          rw [if_pos ⟨⟨x, hxmem, rfl⟩, hplt⟩]
          have htw : List.takeWhile (fun e => decide (e.tick < x.tick)) (x :: xs) = [] := by
            simp [List.takeWhile_cons]
          rw [htw, List.getElem?_set]
          simp [hbound x hxmem]
        · have hcond : ¬ ((∃ e ∈ x :: xs, e.tick = t) ∧ prev < (t : Int)) := by
            rintro ⟨⟨e, he, rfl⟩, hpt⟩
            rcases List.mem_cons.mp he with rfl | hexs
            · exact hxeq rfl
            · have h1 : x.tick ≤ e.tick := hx e hexs
              have h2 : x.tick < e.tick := lt_of_le_of_ne h1 (fun h => hxeq h.symm)
              exact hc ⟨⟨e, hexs, rfl⟩, by exact_mod_cast h2⟩
          rw [if_neg hcond, List.getElem?_set, if_neg (fun h => hxeq h.symm)]
    · -- A repeated tick: `x.tick = prev`, nothing is written.
      rw [if_neg hne]
      have heq : (x.tick : Int) = prev := not_ne_iff.mp hne
      have hprev' : ∀ e ∈ xs, prev ≤ (e.tick : Int) := fun e he => by
        have : (x.tick : Int) ≤ (e.tick : Int) := by exact_mod_cast hx e he
        omega
      have hbound' : ∀ e ∈ xs, e.tick < ti.length := fun e he =>
        hbound e (List.mem_cons_of_mem x he)
      rw [ih (k + 1) ti prev hxs hprev' hbound']
      by_cases hc : (∃ e ∈ xs, e.tick = t) ∧ prev < (t : Int)
      · rw [if_pos hc]
        have hxt : x.tick < t := by
          have h2 := hc.2
          omega
        obtain ⟨e0, he0, he0t⟩ := hc.1
        rw [if_pos ⟨⟨e0, List.mem_cons_of_mem x he0, he0t⟩, hc.2⟩]
        have htw : List.takeWhile (fun e => decide (e.tick < t)) (x :: xs)
            = x :: List.takeWhile (fun e => decide (e.tick < t)) xs := by
          simp [List.takeWhile_cons, hxt]
        rw [htw]
        exact congrArg some (by simp only [List.length_cons]; push_cast; ring)
      · rw [if_neg hc]
        have hcond : ¬ ((∃ e ∈ x :: xs, e.tick = t) ∧ prev < (t : Int)) := by
          rintro ⟨⟨e, he, rfl⟩, hpt⟩
          rcases List.mem_cons.mp he with rfl | hexs
          · omega
          · exact hc ⟨⟨e, hexs, rfl⟩, hpt⟩
        rw [if_neg hcond]

theorem tick_le_lastTickOf {events : List Event} {e : Event}
    (he : e ∈ sortByTick events) : e.tick ≤ lastTickOf events :=
  tick_le_getLast (sortByTick_pairwise events) he

/-- The built `tick_indices`: the slot of every tick `t ≤ last_tick` holds
the position of the first sorted event with tick `t`, or the `-1` sentinel
when the tick has no events. -/
theorem buildStageEvents_tick_indices (events : List Event) (t : Nat)
    (ht : t ≤ lastTickOf events) :
    (buildStageEvents events).tick_indices[t]? =
      if ∃ e ∈ sortByTick events, e.tick = t then
        some ((((sortByTick events).takeWhile (fun e => e.tick < t)).length : Int))
      else some (-1) := by
  have hfill := fillTickIndices_getElem (sortByTick events) 0
      (List.replicate (lastTickOf events + 1) (-1)) (-1)
      (sortByTick_pairwise events)
      (fun e _ => by omega)
      (fun e he => by
        rw [List.length_replicate]
        exact Nat.lt_succ_of_le (tick_le_lastTickOf he))
      t
  show (fillTickIndices (sortByTick events) 0
      (List.replicate (lastTickOf events + 1) (-1)) (-1))[t]? = _
  rw [hfill]
  by_cases hex : ∃ e ∈ sortByTick events, e.tick = t
  · rw [if_pos ⟨hex, by omega⟩, if_pos hex]
    norm_num
  · rw [if_neg (by rintro ⟨h1, -⟩; exact hex h1), if_neg hex,
      List.getElem?_replicate, if_pos (by omega)]

theorem takeWhile_all_append {p : Event → Bool} {A : List Event} (B : List Event)
    (hA : ∀ e ∈ A, p e = true) : (A ++ B).takeWhile p = A ++ B.takeWhile p := by
  induction A with
  | nil => rfl
  | cons x xs ih =>
    rw [List.cons_append, List.takeWhile_cons, if_pos (hA x (List.mem_cons_self x xs)),
      ih (fun e he => hA e (List.mem_cons_of_mem x he)), List.cons_append]

theorem sorted_dropWhile_lt_ge (u : Nat) (l : List Event)
    (hs : l.Pairwise (fun a b => a.tick ≤ b.tick)) :
    ∀ e ∈ l.dropWhile (fun e => e.tick < u), u ≤ e.tick := by
  induction l with
  | nil => intro e he; simp [List.dropWhile] at he
  | cons x xs ih =>
    intro e he
    rcases hs with - | ⟨hx, hxs⟩
    rw [List.dropWhile_cons] at he
    split_ifs at he with hc
    · exact ih hxs e he
    · have hux : u ≤ x.tick := by simpa using hc
      rcases List.mem_cons.mp he with rfl | hexs
      · exact hux
      · exact le_trans hux (hx e hexs)

theorem sorted_dropWhile_eq_gt (u : Nat) (l : List Event)
    (hs : l.Pairwise (fun a b => a.tick ≤ b.tick)) (hge : ∀ e ∈ l, u ≤ e.tick) :
    ∀ e ∈ l.dropWhile (fun e => e.tick == u), u < e.tick := by
  induction l with
  | nil => intro e he; simp [List.dropWhile] at he
  | cons x xs ih =>
    intro e he
    rcases hs with - | ⟨hx, hxs⟩
    rw [List.dropWhile_cons] at he
    split_ifs at he with hc
    · exact ih hxs (fun e' he' => hge e' (List.mem_cons_of_mem x he')) e he
    · have hxu : x.tick ≠ u := by simpa using hc
      have hxgt : u < x.tick :=
        lt_of_le_of_ne (hge x (List.mem_cons_self x xs)) (Ne.symm hxu)
      rcases List.mem_cons.mp he with rfl | hexs
      · exact hxgt
      · exact lt_of_lt_of_le hxgt (hx e hexs)

/-- Decomposition of a tick-sorted list around a tick `u`: a prefix of events
strictly below `u`, the contiguous block at `u`, and a suffix strictly
above `u`. -/
theorem sorted_decomp (u : Nat) (l : List Event)
    (hs : l.Pairwise (fun a b => a.tick ≤ b.tick)) :
    ∃ A B C : List Event,
      l = A ++ B ++ C ∧
      l.takeWhile (fun e => e.tick < u) = A ∧
      l.takeWhile (fun e => e.tick < u + 1) = A ++ B ∧
      l.filter (fun e => e.tick == u) = B ∧
      ((∃ e ∈ l, e.tick = u) ↔ B ≠ []) ∧
      (∀ e ∈ B, e.tick = u) := by
  set A := l.takeWhile (fun e => e.tick < u) with hAdef
  set R := l.dropWhile (fun e => e.tick < u) with hRdef
  set B := R.takeWhile (fun e => e.tick == u) with hBdef
  set C := R.dropWhile (fun e => e.tick == u) with hCdef
  have hAR : A ++ R = l := List.takeWhile_append_dropWhile _ _
  have hBC : B ++ C = R := List.takeWhile_append_dropWhile _ _
  have hA : ∀ e ∈ A, e.tick < u := fun e he => by
    simpa using List.mem_takeWhile_imp he
  have hRge : ∀ e ∈ R, u ≤ e.tick := sorted_dropWhile_lt_ge u l hs
  have hRsorted : R.Pairwise (fun a b => a.tick ≤ b.tick) :=
    hs.sublist (List.dropWhile_sublist _)
  have hB : ∀ e ∈ B, e.tick = u := fun e he => by
    simpa using List.mem_takeWhile_imp he
  have hC : ∀ e ∈ C, u < e.tick := sorted_dropWhile_eq_gt u R hRsorted hRge
  have hdec : l = A ++ B ++ C := by
    rw [List.append_assoc, hBC, hAR]
  refine ⟨A, B, C, hdec, rfl, ?_, ?_, ?_, hB⟩
  · -- takeWhile below u+1
    have h1 : l.takeWhile (fun e => e.tick < u + 1) =
        (A ++ (B ++ C)).takeWhile (fun e => e.tick < u + 1) := by
      rw [← List.append_assoc, ← hdec]
    rw [h1, takeWhile_all_append (B ++ C) (fun e he => by
        simpa using Nat.lt_succ_of_lt (hA e he)),
      takeWhile_all_append C (fun e he => by
        simpa using Nat.lt_succ_of_le (le_of_eq (hB e he)))]
    have hCtw : C.takeWhile (fun e => e.tick < u + 1) = [] := by
      cases hCc : C with
      | nil => rfl
      | cons c cs =>
        have := hC c (hCc ▸ List.mem_cons_self c cs)
        rw [List.takeWhile_cons, if_neg (by simpa using this)]
    rw [hCtw, List.append_nil]
  · -- filter at u
    have h1 : l.filter (fun e => e.tick == u) =
        (A ++ B ++ C).filter (fun e => e.tick == u) := by rw [← hdec]
    rw [h1, List.filter_append, List.filter_append]
    have hfA : A.filter (fun e => e.tick == u) = [] :=
      List.filter_eq_nil_iff.mpr (fun e he => by simpa using Nat.ne_of_lt (hA e he))
    have hfB : B.filter (fun e => e.tick == u) = B :=
      List.filter_eq_self.mpr (fun e he => by simpa using hB e he)
    have hfC : C.filter (fun e => e.tick == u) = [] :=
      List.filter_eq_nil_iff.mpr (fun e he => by simpa using Ne.symm (Nat.ne_of_lt (hC e he)))
    rw [hfA, hfB, hfC, List.nil_append, List.append_nil]
  · constructor
    · rintro ⟨e, he, het⟩
      rw [hdec] at he
      rcases List.mem_append.mp he with h1 | hC'
      · rcases List.mem_append.mp h1 with hA' | hB'
        · exact absurd het (Nat.ne_of_lt (hA e hA'))
        · exact List.ne_nil_of_mem hB'
      · exact absurd het.symm (Nat.ne_of_lt (hC e hC'))
    · intro hne
      obtain ⟨b, hb⟩ := List.exists_mem_of_ne_nil B hne
      refine ⟨b, ?_, hB b hb⟩
      rw [hdec]
      exact List.mem_append.mpr (Or.inl (List.mem_append.mpr (Or.inr hb)))

theorem usizeOfInt_ofNat {n : Nat} (h : n < 0x10000000000000000) :
    usizeOfInt (n : Int) = n := by
  unfold usizeOfInt
  rw [Int.emod_eq_of_lt (by positivity) (by exact_mod_cast h)]
  simp

/-- Claim C10: when the stage's sorted event list has at least one event at
every tick from 0 through the last event's tick (no tick gaps),
`StageEvents::for_tick(t)` performs only in-bounds indexing for every
`t < total_ticks` — the `some` result models absence of any panic — and
returns exactly the contiguous run of events whose tick equals `t`.  The
`events.length < 2^31` bound reflects the `i32` event indices built by
`StageInfo::new`. -/
theorem for_tick_no_gaps (events : List Event) (t : Nat)
    (hlen : events.length < 0x80000000)
    (hng : ∀ u, u ≤ lastTickOf events → ∃ e ∈ events, e.tick = u)
    (ht : t < (buildStageEvents events).total_ticks) :
    (buildStageEvents events).for_tick t
      = some ((buildStageEvents events).all.filter (fun e => e.tick == t)) := by
  have hsorted := sortByTick_pairwise events
  have hperm := sortByTick_perm events
  have htL : t < lastTickOf events := ht
  obtain ⟨A, B, C, hdec, hA, hAB, hfilt, hiffB, hBt⟩ := sorted_decomp t _ hsorted
  have hpres : ∃ e ∈ sortByTick events, e.tick = t := by
    obtain ⟨e, he, het⟩ := hng t (le_of_lt htL)
    exact ⟨e, hperm.mem_iff.mpr he, het⟩
  have hpres1 : ∃ e ∈ sortByTick events, e.tick = t + 1 := by
    obtain ⟨e, he, het⟩ := hng (t + 1) (by omega)
    exact ⟨e, hperm.mem_iff.mpr he, het⟩
  have hidx := buildStageEvents_tick_indices events t (le_of_lt htL)
  rw [if_pos hpres, hA] at hidx
  have hidx1 := buildStageEvents_tick_indices events (t + 1) (by omega)
  rw [if_pos hpres1, hAB] at hidx1
  have hlenAll : (sortByTick events).length = events.length := hperm.length_eq
  have hlensum : (sortByTick events).length = A.length + B.length + C.length := by
    rw [hdec, List.length_append, List.length_append]
  have hAbound : A.length < 0x10000000000000000 := by omega
  have hABbound : (A ++ B).length < 0x10000000000000000 := by
    rw [List.length_append]; omega
  have hnotpast : ¬ (buildStageEvents events).total_ticks < t := not_lt.mpr (le_of_lt ht)
  have hall : (buildStageEvents events).all = sortByTick events := rfl
  unfold StageEvents.for_tick
  rw [hall, hidx]
  simp only [Option.some_bind]
  rw [if_neg (show ¬ ((A.length : Int) < 0) by omega), if_neg hnotpast, hidx1]
  simp only [Option.some_bind]
  rw [usizeOfInt_ofNat hAbound, usizeOfInt_ofNat hABbound]
  have hle1 : A.length ≤ (A ++ B).length := by
    rw [List.length_append]; omega
  have hle2 : (A ++ B).length ≤ (sortByTick events).length := by
    rw [List.length_append]; omega
  rw [if_pos ⟨hle1, hle2⟩]
  refine congrArg some ?_
  have hsub : (A ++ B).length - A.length = B.length := by
    rw [List.length_append]; omega
  have hdrop : (sortByTick events).drop A.length = B ++ C := by
    rw [hdec, List.append_assoc, List.drop_left]
  rw [hsub, hdrop, List.take_left]
  exact hfilt.symm

/-- Claim C10, witness: a two-tick stage, queried at tick 0. -/
theorem for_tick_no_gaps_witness :
    (buildStageEvents [eventAt 1, eventAt 0]).for_tick 0
      = some ((buildStageEvents [eventAt 1, eventAt 0]).all.filter
          (fun e => e.tick == 0)) :=
  for_tick_no_gaps [eventAt 1, eventAt 0] 0 (by norm_num) (by decide) (by decide)

theorem wrap32_eq {n : Int} (h1 : -0x80000000 ≤ n) (h2 : n < 0x80000000) :
    wrap32 n = n := by
  unfold wrap32
  omega

/-- Claim C4: `apply_equipment_delta` obeys the specified slot semantics.
With the slot currently holding `{id, q}` (an in-range `i32` quantity),
`Add(slot, id, qty)` accumulates to `{id, q + qty}` (when the sum stays in
`i32` range); `Add` with a different or empty current id replaces the slot
with `{id, qty}`; `Remove(slot, id, qty)` with the same id subtracts while
`q > qty` and clears the slot when `q ≤ qty`; `Remove` with a different or
empty current id clears the slot; a stored quantity never becomes
negative. -/
theorem apply_equipment_delta_cases (s : PlayerState) (slot : EquipmentSlot)
    (id q qty : Int) (hq0 : 0 ≤ q) (hq31 : q < 0x80000000) (hqty0 : 0 ≤ qty) :
    ((s.equipment[slot.index]? = some (some ⟨id, q⟩) → q + qty < 0x80000000 →
      (s.apply_equipment_delta (.add slot id qty)).equipment[slot.index]?
        = some (some ⟨id, q + qty⟩) ∧ 0 ≤ q + qty))
    ∧ (∀ id0 : Int, s.equipment[slot.index]? = some (some ⟨id0, q⟩) → id0 ≠ id →
      (s.apply_equipment_delta (.add slot id qty)).equipment[slot.index]?
        = some (some ⟨id, qty⟩))
    ∧ (s.equipment[slot.index]? = some none →
      (s.apply_equipment_delta (.add slot id qty)).equipment[slot.index]?
        = some (some ⟨id, qty⟩))
    ∧ (s.equipment[slot.index]? = some (some ⟨id, q⟩) → qty < q →
      (s.apply_equipment_delta (.remove slot id qty)).equipment[slot.index]?
        = some (some ⟨id, q - qty⟩) ∧ 0 < q - qty)
    ∧ (s.equipment[slot.index]? = some (some ⟨id, q⟩) → q ≤ qty →
      (s.apply_equipment_delta (.remove slot id qty)).equipment[slot.index]?
        = some none)
    ∧ (∀ id0 : Int, s.equipment[slot.index]? = some (some ⟨id0, q⟩) → id0 ≠ id →
      (s.apply_equipment_delta (.remove slot id qty)).equipment[slot.index]?
        = some none)
    ∧ (s.equipment[slot.index]? = some none →
      (s.apply_equipment_delta (.remove slot id qty)).equipment[slot.index]?
        = some none) := by
  have hset : ∀ (v : Option ItemQuantity), slot.index < s.equipment.length →
      (s.equipment.set slot.index v)[slot.index]? = some v := by
    intro v hs
    rw [List.getElem?_set, if_pos rfl, if_pos hs]
  have hinb : ∀ (w : Option ItemQuantity), s.equipment[slot.index]? = some w →
      slot.index < s.equipment.length := by
    intro w hw
    rcases List.getElem?_eq_some.mp hw with ⟨h, -⟩
    exact h
  refine ⟨?_, ?_, ?_, ?_, ?_, ?_, ?_⟩
  · intro hcur hsum
    simp only [PlayerState.apply_equipment_delta]
    split
    · next item heq =>
      rw [hcur] at heq
      cases heq
      rw [if_pos rfl]
      refine ⟨?_, by omega⟩
      show (s.equipment.set slot.index (some ⟨id, wrap32 (q + qty)⟩))[slot.index]?
        = some (some ⟨id, q + qty⟩)
      rw [wrap32_eq (by omega) hsum]
      exact hset _ (hinb _ hcur)
    · next heq =>
      rw [hcur] at heq
      cases heq
  · intro id0 hcur hne
    simp only [PlayerState.apply_equipment_delta]
    split
    · next item heq =>
      rw [hcur] at heq
      cases heq
      rw [if_neg (show ¬ ((⟨id0, q⟩ : ItemQuantity).id = id) from hne)]
      exact hset _ (hinb _ hcur)
    · next heq =>
      rw [hcur] at heq
      cases heq
  · intro hcur
    simp only [PlayerState.apply_equipment_delta]
    split
    · next item heq =>
      rw [hcur] at heq
      cases heq
    · next heq =>
      exact hset _ (hinb _ hcur)
  · intro hcur hgt
    simp only [PlayerState.apply_equipment_delta]
    split
    · next item heq =>
      rw [hcur] at heq
      cases heq
      rw [if_pos rfl, if_neg (show ¬ ((⟨id, q⟩ : ItemQuantity).quantity ≤ qty) by
        show ¬ q ≤ qty; omega)]
      refine ⟨?_, by omega⟩
      show (s.equipment.set slot.index (some ⟨id, wrap32 (q - qty)⟩))[slot.index]?
        = some (some ⟨id, q - qty⟩)
      rw [wrap32_eq (by omega) (by omega)]
      exact hset _ (hinb _ hcur)
    · next heq =>
      rw [hcur] at heq
      cases heq
  · intro hcur hle
    simp only [PlayerState.apply_equipment_delta]
    split
    · next item heq =>
      rw [hcur] at heq
      cases heq
      rw [if_pos rfl, if_pos (show (⟨id, q⟩ : ItemQuantity).quantity ≤ qty from hle)]
      exact hset _ (hinb _ hcur)
    · next heq =>
      rw [hcur] at heq
      cases heq
  · intro id0 hcur hne
    simp only [PlayerState.apply_equipment_delta]
    split
    · next item heq =>
      rw [hcur] at heq
      cases heq
      rw [if_neg (show ¬ ((⟨id0, q⟩ : ItemQuantity).id = id) from hne)]
      exact hset _ (hinb _ hcur)
    · next heq =>
      rw [hcur] at heq
      cases heq
  · intro hcur
    simp only [PlayerState.apply_equipment_delta]
    split
    · next item heq =>
      rw [hcur] at heq
      cases heq
    · next heq =>
      exact hset _ (hinb _ hcur)

/-- Claim C4, witness: adding 3 more of item 7 to a head slot holding
5 of item 7 yields 8 of item 7. -/
theorem apply_equipment_delta_cases_witness :
    (sampleState.apply_equipment_delta (.add .head 7 3)).equipment[0]?
      = some (some ⟨7, 8⟩) ∧ (0 : Int) ≤ 8 :=
  ((apply_equipment_delta_cases sampleState .head 7 5 3 (by norm_num) (by norm_num)
      (by norm_num)).1 (by decide) (by norm_num))

/-- Claim C1 (code divergence, evaluated at the failing input): for the
non-empty event list with events at ticks 0, 1 and 2, `StageInfo::new`
derives `total_ticks = 2` — the greatest event tick itself, not the greatest
tick plus one as the claim states — while `tick_indices` is sized for 3
ticks, and the reconstructed per-player state sequence has only 2 entries,
so the events of the final tick are never folded into player state. -/
theorem total_ticks_is_last_tick_not_succ :
    (buildStageEvents cexEvents).total_ticks = 2 ∧
    (buildStageEvents cexEvents).tick_indices.length = 3 ∧
    (build_player_state_for cexEvents [] 0).map List.length = .ok 2 ∧
    (2 : Nat) + 1 ≠ 2 := by
  refine ⟨rfl, by rfl, by rfl, by omega⟩

theorem apply_equipment_delta_death (s : PlayerState) (d : ItemDelta) :
    (s.apply_equipment_delta d).death_state = s.death_state := by
  cases d <;> simp only [PlayerState.apply_equipment_delta] <;> split <;>
    (try split) <;> (try split) <;> rfl

theorem applyDeltas_death {s : PlayerState} {ds : List Nat} {s' : PlayerState}
    (h : applyDeltas s ds = .ok s') : s'.death_state = s.death_state := by
  induction ds generalizing s with
  | nil => cases h; rfl
  | cons d rest ih =>
    unfold applyDeltas at h
    split at h
    · next delta heq => exact (ih h).trans (apply_equipment_delta_death s delta)
    · cases h

theorem apply_stats_death (s : PlayerState) (p : EventPlayer) :
    (s.apply_stats p).death_state = s.death_state := rfl

theorem applyEvent_death_preserved {npcs : List (Nat × StageNpc)} {index t : Nat}
    {st : PlayerState} {e : Event} {st' : PlayerState}
    (h : applyEvent npcs index t st e = .ok st')
    (hnd : isDeathFor index e = false) :
    st'.death_state = st.death_state := by
  unfold applyEvent at h
  split at h
  · next player heq1 heq2 =>
    split at h
    · next hidx =>
      split at h
      · next => cases h; rfl
      · next heqT =>
        exfalso
        have : isDeathFor index e = true := by
          unfold isDeathFor
          rw [heqT, heq2]
          simp [hidx]
        rw [this] at hnd
        cases hnd
      · next =>
        refine (applyDeltas_death h).trans ?_
        show (PlayerState.apply_stats _ player).death_state = st.death_state
        rw [apply_stats_death]
        split <;> rfl
      · next => cases h; rfl
    · next => cases h; rfl
  · next => cases h; rfl

theorem applyEvents_death_preserved {npcs : List (Nat × StageNpc)} {index t : Nat}
    {st : PlayerState} {evts : List Event} {st' : PlayerState}
    (h : applyEvents npcs index t st evts = .ok st')
    (hnd : ∀ e ∈ evts, isDeathFor index e = false) :
    st'.death_state = st.death_state := by
  induction evts generalizing st with
  | nil => cases h; rfl
  | cons e rest ih =>
    unfold applyEvents at h
    split at h
    · next st1 heq =>
      exact (ih h (fun e' he' => hnd e' (List.mem_cons_of_mem e he'))).trans
        (applyEvent_death_preserved heq (hnd e (List.mem_cons_self e rest)))
    · cases h

theorem next_tick_death_of_justDied {s : PlayerState} (hd : s.death_state = .justDied) :
    s.next_tick.death_state = .dead := by
  show (match s.death_state with | .justDied => DeathState.dead | _ => DeathState.alive)
    = DeathState.dead
  rw [hd]

theorem procTick_death_of_justDied {npcs : List (Nat × StageNpc)} {index t : Nat}
    {s : PlayerState} {evts : List Event} {st' : PlayerState}
    (h : procTick npcs index t (some s) evts = .ok st')
    (hd : s.death_state = .justDied)
    (hnd : ∀ e ∈ evts, isDeathFor index e = false) :
    st'.death_state = .dead := by
  unfold procTick at h
  exact (applyEvents_death_preserved h hnd).trans (next_tick_death_of_justDied hd)

theorem buildGo_cons {se : StageEvents} {npcs : List (Nat × StageNpc)} {index : Nat}
    {n t : Nat} {last : Option PlayerState} {l : List PlayerState}
    (h : buildGo se npcs index (n + 1) t last = .ok l) :
    ∃ evts s rest, se.for_tick t = some evts ∧
      procTick npcs index t last evts = .ok s ∧
      buildGo se npcs index n (t + 1) (some s) = .ok rest ∧ l = s :: rest := by
  unfold buildGo at h
  split at h
  · cases h
  · next evts heq =>
    split at h
    · cases h
    · next s heq2 =>
      split at h
      · cases h
      · next rest heq3 =>
        cases h
        exact ⟨evts, s, rest, heq, heq2, heq3, rfl⟩

theorem buildGo_get_succ (se : StageEvents) (npcs : List (Nat × StageNpc)) (index : Nat) :
    ∀ (n t : Nat) (last : Option PlayerState) (l : List PlayerState),
      buildGo se npcs index n t last = .ok l →
      ∀ (i : Nat) (si si1 : PlayerState), l[i]? = some si → l[i + 1]? = some si1 →
        ∃ evts, se.for_tick (t + i + 1) = some evts ∧
          procTick npcs index (t + i + 1) (some si) evts = .ok si1 := by
  intro n
  induction n with
  | zero =>
    intro t last l h i si si1 hsi hsi1
    cases h
    simp at hsi
  | succ m ih =>
    intro t last l h i si si1 hsi hsi1
    obtain ⟨evts, s, rest, heq, heq2, heq3, rfl⟩ := buildGo_cons h
    cases i with
    | zero =>
      rw [List.getElem?_cons_zero] at hsi
      cases hsi
      rw [List.getElem?_cons_succ] at hsi1
      cases m with
      | zero =>
        cases heq3
        simp at hsi1
      | succ m' =>
        obtain ⟨evts1, s1, rest1, heqA, heqB, heqC, rfl⟩ := buildGo_cons heq3
        rw [List.getElem?_cons_zero] at hsi1
        cases hsi1
        exact ⟨evts1, heqA, heqB⟩
    | succ j =>
      rw [List.getElem?_cons_succ] at hsi
      rw [List.getElem?_cons_succ] at hsi1
      obtain ⟨evts1, hA, hB⟩ := ih (t + 1) (some s) rest heq3 j si si1 hsi hsi1
      have harith : t + 1 + j + 1 = t + (j + 1) + 1 := by omega
      rw [harith] at hA hB
      exact ⟨evts1, hA, hB⟩

/-- Any event delivered by a successful `for_tick(u)` query on a built stage
index belongs to the sorted event list and carries tick `u` (under the
`i32` length bound of the source's event indices). -/
theorem for_tick_members (events : List Event) (u : Nat)
    (hlen : events.length < 0x80000000) {evts : List Event}
    (h : (buildStageEvents events).for_tick u = some evts) :
    ∀ e ∈ evts, e ∈ sortByTick events ∧ e.tick = u := by
  have hall : (buildStageEvents events).all = sortByTick events := rfl
  have hlenAll : (sortByTick events).length = events.length :=
    (sortByTick_perm events).length_eq
  have hlen2 : (buildStageEvents events).tick_indices.length = lastTickOf events + 1 := by
    show (fillTickIndices (sortByTick events) 0
        (List.replicate (lastTickOf events + 1) (-1)) (-1)).length = _
    rw [fillTickIndices_length, List.length_replicate]
  unfold StageEvents.for_tick at h
  rw [hall] at h
  cases hidx0 : (buildStageEvents events).tick_indices[u]? with
  | none => rw [hidx0] at h; cases h
  | some start =>
    rw [hidx0] at h
    simp only [Option.some_bind] at h
    have hu : u ≤ lastTickOf events := by
      rcases List.getElem?_eq_some.mp hidx0 with ⟨hub, -⟩
      omega
    have hspec := buildStageEvents_tick_indices events u hu
    rw [hidx0] at hspec
    by_cases hex : ∃ e ∈ sortByTick events, e.tick = u
    · obtain ⟨A, B, C, hdec, hA, hAB, hfilt, hiffB, hBt⟩ :=
        sorted_decomp u _ (sortByTick_pairwise events)
      have hlensum : (sortByTick events).length = A.length + B.length + C.length := by
        rw [hdec, List.length_append, List.length_append]
      rw [if_pos hex, hA] at hspec
      cases hspec
      rw [if_neg (show ¬ ((A.length : Int) < 0) by omega)] at h
      have hnotpast : ¬ (buildStageEvents events).total_ticks < u := by
        show ¬ lastTickOf events < u
        omega
      rw [if_neg hnotpast] at h
      by_cases hul : u < lastTickOf events
      · have hspec1 := buildStageEvents_tick_indices events (u + 1) (by omega)
        by_cases hex1 : ∃ e ∈ sortByTick events, e.tick = u + 1
        · rw [if_pos hex1, hAB] at hspec1
          rw [hspec1] at h
          simp only [Option.some_bind] at h
          rw [usizeOfInt_ofNat (by omega),
            usizeOfInt_ofNat (by rw [List.length_append]; omega)] at h
          rw [if_pos ⟨by rw [List.length_append]; omega, by rw [List.length_append]; omega⟩] at h
          have hslice : ((sortByTick events).drop A.length).take
              ((A ++ B).length - A.length) = B := by
            have hsub : (A ++ B).length - A.length = B.length := by
              rw [List.length_append]; omega
            rw [hsub, hdec, List.append_assoc, List.drop_left, List.take_left]
          rw [hslice] at h
          cases h
          intro e he
          refine ⟨?_, hBt e he⟩
          rw [hdec]
          exact List.mem_append.mpr (Or.inl (List.mem_append.mpr (Or.inr he)))
        · -- tick `u + 1` has no events: the end slot holds `-1`, whose
          -- `as usize` value fails the slice bound check, so `for_tick`
          -- would have panicked.
          rw [if_neg hex1] at hspec1
          rw [hspec1] at h
          simp only [Option.some_bind] at h
          rw [usizeOfInt_ofNat (show A.length < 0x10000000000000000 by omega)] at h
          have hm1 : usizeOfInt (-1) = 0xffffffffffffffff := by rfl
          rw [hm1] at h
          have hguard : ¬ (A.length ≤ 0xffffffffffffffff ∧
              0xffffffffffffffff ≤ (sortByTick events).length) := by
            rintro ⟨-, h2⟩
            omega
          rw [if_neg hguard] at h
          cases h
      · -- `u` is the last tick: the end-slot access `tick_indices[u + 1]`
        -- is out of bounds, so `for_tick` would have panicked.
        have hnone : (buildStageEvents events).tick_indices[u + 1]? = none := by
          apply List.getElem?_eq_none
          rw [hlen2]
          omega
        rw [hnone] at h
        simp only [Option.none_bind] at h
        cases h
    · rw [if_neg hex] at hspec
      cases hspec
      rw [if_pos (show (-1 : Int) < 0 by norm_num)] at h
      cases h
      intro e he
      cases he

/-- Claim C7, counterexample: with player-death events at ticks 0, 1 and 2,
the reconstructed death state is `JustDied` at tick 0 and again `JustDied` —
not `Dead` — at tick 1, although `1 < total_ticks = 2`.  A second
`PlayerDeath` event at the following tick re-marks the player `JustDied`,
so the claim as stated fails. -/
theorem justDied_then_dead_counterexample :
    (buildStageEvents cexEvents).total_ticks = 2 ∧
    (build_player_state_for cexEvents [] 0).map (fun l => l.map PlayerState.death_state)
      = .ok [.justDied, .justDied] ∧
    DeathState.justDied ≠ DeathState.dead := by
  refine ⟨rfl, by rfl, by decide⟩

/-- Claim C7 (amended): in a successful reconstruction, if the player's
death state at tick `t` is `JustDied` and tick `t + 1` is also covered, the
death state at `t + 1` is `Dead` — provided no `PlayerDeath` event for that
player occurs at tick `t + 1` (such an event re-marks the player `JustDied`
instead).  The `events.length < 2^31` bound reflects the source's `i32`
event indices. -/
theorem justDied_then_dead (events : List Event) (npcs : List (Nat × StageNpc))
    (index t : Nat) (states : List PlayerState) (s s1 : PlayerState)
    (hlen : events.length < 0x80000000)
    (hok : build_player_state_for events npcs index = .ok states)
    (hs : states[t]? = some s) (hs1 : states[t + 1]? = some s1)
    (hd : s.death_state = .justDied)
    (hnd : ∀ e ∈ events, e.tick = t + 1 → isDeathFor index e = false) :
    s1.death_state = .dead := by
  have hok' : buildGo (buildStageEvents events) npcs index
      (buildStageEvents events).total_ticks 0 none = .ok states := hok
  obtain ⟨evts, hft, hpt⟩ := buildGo_get_succ (buildStageEvents events) npcs index
    (buildStageEvents events).total_ticks 0 none states hok' t s s1 hs hs1
  have hmem := for_tick_members events (0 + t + 1) hlen hft
  refine procTick_death_of_justDied hpt hd ?_
  intro e he
  obtain ⟨hmem1, htick⟩ := hmem e he
  exact hnd e ((sortByTick_perm events).mem_iff.mp hmem1) (by omega)

/-- Claim C7, witness for the amended theorem: a death at tick 0 with no
further death event at tick 1 yields `Dead` at tick 1. -/
theorem justDied_then_dead_witness : witS1.death_state = .dead :=
  justDied_then_dead witEvents [] 0 0 [witS0, witS1] witS0 witS1
    (by norm_num [witEvents]) (by rfl) (by rfl) (by rfl) (by rfl) (by decide)

theorem insertByWeakDesc_perm (p : String × Nat) (l : List (String × Nat)) :
    (insertByWeakDesc p l).Perm (p :: l) := by
  induction l with
  | nil => exact List.Perm.refl _
  | cons x xs ih =>
    unfold insertByWeakDesc
    split_ifs
    · exact (ih.cons x).trans (List.Perm.swap p x xs)
    · exact List.Perm.refl _

theorem sortUnassignedPlayers_perm (l : List (String × Nat)) :
    (sortUnassignedPlayers l).Perm l := by
  induction l with
  | nil => exact List.Perm.refl _
  | cons p rest ih =>
    exact (insertByWeakDesc_perm p (sortUnassignedPlayers rest)).trans (ih.cons p)

theorem insertByWeakDesc_pairwise {p : String × Nat} {l : List (String × Nat)}
    (h : l.Pairwise (fun a b => b.2 ≤ a.2)) :
    (insertByWeakDesc p l).Pairwise (fun a b => b.2 ≤ a.2) := by
  induction l with
  | nil => simp [insertByWeakDesc]
  | cons x xs ih =>
    rcases h with - | ⟨hx, hxs⟩
    unfold insertByWeakDesc
    split_ifs with hc
    · refine List.Pairwise.cons (fun b hb => ?_) (ih hxs)
      rcases List.mem_cons.mp ((insertByWeakDesc_perm p xs).mem_iff.mp hb) with rfl | hb'
      · omega
      · exact hx b hb'
    · refine List.Pairwise.cons (fun b hb => ?_) (List.Pairwise.cons hx hxs)
      rcases List.mem_cons.mp hb with rfl | hb'
      · omega
      · have := hx b hb'
        omega

theorem sortUnassignedPlayers_pairwise (l : List (String × Nat)) :
    (sortUnassignedPlayers l).Pairwise (fun a b => b.2 ≤ a.2) := by
  induction l with
  | nil => exact List.Pairwise.nil
  | cons p rest ih => exact insertByWeakDesc_pairwise ih

theorem firstSuccess_ok_some {f : Nat → Except Err (Option (List PrimaryRole))}
    {is : List Nat} {result : List PrimaryRole}
    (h : firstSuccess f is = .ok (some result)) :
    ∃ i ∈ is, f i = .ok (some result) := by
  induction is with
  | nil => cases h
  | cons i is ih =>
    unfold firstSuccess at h
    split at h
    · next res heq =>
      cases h
      exact ⟨i, List.mem_cons_self i is, heq⟩
    · next heq =>
      obtain ⟨i', hi', hf⟩ := ih h
      exact ⟨i', List.mem_cons_of_mem i hi', hf⟩
    · cases h

/-- A successful search extends its accumulated assignment with players
taken from `unassigned_players` in list order: the entry added at depth `k`
names the player at position `roles_assigned.length + k`. -/
theorem tryAssignRoles_players_in_order
    (weak_matches : List (Role × List String))
    (unassigned_players : List (String × Nat)) :
    ∀ (fuel : Nat) (roles : List Role) (assigned result : List PrimaryRole),
      tryAssignRoles weak_matches unassigned_players fuel roles assigned
        = .ok (some result) →
      ∃ tail, result = assigned ++ tail ∧
        ∀ (k : Nat) (pr : PrimaryRole), tail[k]? = some pr →
          ∃ w, unassigned_players[assigned.length + k]? = some (pr.player, w) := by
  intro fuel
  induction fuel with
  | zero =>
    intro roles assigned result h
    match roles, h with
    | [], h =>
      cases h
      refine ⟨[], by simp, ?_⟩
      intro k pr hk
      simp at hk
    | r :: roles', h =>
      unfold tryAssignRoles at h
      split at h
      · cases h
      · next pw heq =>
        split at h
        · next hone =>
          cases h
          refine ⟨[⟨pw.1, r⟩], rfl, ?_⟩
          intro k pr hk
          cases k with
          | zero =>
            rw [List.getElem?_cons_zero] at hk
            cases hk
            exact ⟨pw.2, by simpa using heq⟩
          | succ k' =>
            rw [List.getElem?_cons_succ] at hk
            simp at hk
        · cases h
  | succ fuel' ih =>
    intro roles assigned result h
    match roles, h with
    | [], h =>
      cases h
      refine ⟨[], by simp, ?_⟩
      intro k pr hk
      simp at hk
    | r :: roles', h =>
      unfold tryAssignRoles at h
      split at h
      · cases h
      · next pw heq =>
        split at h
        · next hone =>
          cases h
          refine ⟨[⟨pw.1, r⟩], rfl, ?_⟩
          intro k pr hk
          cases k with
          | zero =>
            rw [List.getElem?_cons_zero] at hk
            cases hk
            exact ⟨pw.2, by simpa using heq⟩
          | succ k' =>
            rw [List.getElem?_cons_succ] at hk
            simp at hk
        · next hone =>
          obtain ⟨i, hi, hf⟩ := firstSuccess_ok_some h
          split at hf
          · cases hf
          · next role heqr =>
            split at hf
            · obtain ⟨tail', htail', hplayers⟩ := ih _ _ _ hf
              refine ⟨⟨pw.1, role⟩ :: tail', ?_, ?_⟩
              · rw [htail']
                simp
              · intro k pr hk
                cases k with
                | zero =>
                  rw [List.getElem?_cons_zero] at hk
                  cases hk
                  exact ⟨pw.2, by simpa using heq⟩
                | succ k' =>
                  rw [List.getElem?_cons_succ] at hk
                  obtain ⟨w, hw⟩ := hplayers k' pr hk
                  refine ⟨w, ?_⟩
                  have harith : (assigned ++ [(⟨pw.1, role⟩ : PrimaryRole)]).length + k'
                      = assigned.length + (k' + 1) := by
                    rw [List.length_append]
                    simp
                    omega
                  rwa [harith] at hw
            · cases hf

/-- Claim C8, counterexample: the list `[("a", 0), ("b", 2)]` of unassigned
players is sorted by `find_role_matches` to `[("b", 2), ("a", 0)]`, which is
not in ascending order of weak-match count: the source sorts by
`Reverse(weak_matches)`, i.e. descending. -/
theorem sortUnassignedPlayers_not_ascending :
    sortUnassignedPlayers [("a", 0), ("b", 2)] = [("b", 2), ("a", 0)] ∧
    ¬ (sortUnassignedPlayers [("a", 0), ("b", 2)]).Pairwise
        (fun a b => a.2 ≤ b.2) := by
  refine ⟨rfl, fun hp => ?_⟩
  rw [show sortUnassignedPlayers [("a", 0), ("b", 2)] = [("b", 2), ("a", 0)] from rfl] at hp
  have h2 := (List.pairwise_cons.mp hp).1 ("a", 0) (by simp)
  simp at h2

/-- Claim C8 (amended): after evidence gathering and before the backtracking
depth-first assignment, the unassigned players are sorted in DESCENDING
order of their weak-match count (a stable sort by `Reverse(weak_matches)`),
and the search considers players in exactly that list order: every
assignment produced from an empty accumulator maps position `k` to the
player at position `k` of the sorted list. -/
theorem unassigned_players_sorted_desc (l : List (String × Nat))
    (weak_matches : List (Role × List String)) (fuel : Nat) (roles : List Role)
    (result : List PrimaryRole)
    (h : tryAssignRoles weak_matches (sortUnassignedPlayers l) fuel roles []
      = .ok (some result)) :
    (sortUnassignedPlayers l).Perm l ∧
    (sortUnassignedPlayers l).Pairwise (fun a b => b.2 ≤ a.2) ∧
    ∀ (k : Nat) (pr : PrimaryRole), result[k]? = some pr →
      ∃ w, (sortUnassignedPlayers l)[k]? = some (pr.player, w) := by
  refine ⟨sortUnassignedPlayers_perm l, sortUnassignedPlayers_pairwise l, ?_⟩
  obtain ⟨tail, htail, hplayers⟩ :=
    tryAssignRoles_players_in_order weak_matches (sortUnassignedPlayers l)
      fuel roles [] result h
  intro k pr hk
  rw [htail, List.nil_append] at hk
  have hw := hplayers k pr hk
  simpa using hw

/-- Claim C8, witness: two players with weak-match counts 1 and 2 are
considered in descending order; the two-role search assigns them in that
order. -/
theorem unassigned_players_sorted_desc_witness :
    (sortUnassignedPlayers [("a", 1), ("b", 2)]).Perm [("a", 1), ("b", 2)] ∧
    (sortUnassignedPlayers [("a", 1), ("b", 2)]).Pairwise (fun a b => b.2 ≤ a.2) ∧
    ∀ (k : Nat) (pr : PrimaryRole),
      ([⟨"b", Role.mage⟩, ⟨"a", Role.ranger⟩] : List PrimaryRole)[k]? = some pr →
      ∃ w, (sortUnassignedPlayers [("a", 1), ("b", 2)])[k]? = some (pr.player, w) :=
  unassigned_players_sorted_desc [("a", 1), ("b", 2)]
    [(Role.mage, ["b"]), (Role.ranger, ["a"])] 2 [Role.mage, Role.ranger]
    [⟨"b", Role.mage⟩, ⟨"a", Role.ranger⟩] (by rfl)

theorem find?_filter_of_imp {α : Type} (l : List (α × ProgramConfig))
    (q r : α × ProgramConfig → Bool) (himp : ∀ x, q x = true → r x = true) :
    (l.filter r).find? q = l.find? q := by
  induction l with
  | nil => rfl
  | cons x xs ih =>
    cases hr : r x with
    | true =>
      simp only [List.filter_cons, hr, if_true, List.find?_cons]
      cases hq : q x <;> simp [hq, ih]
    | false =>
      cases hq : q x with
      | true => rw [himp x hq] at hr; cases hr
      | false =>
        simp only [List.filter_cons, hr, List.find?_cons]
        simp [hq, ih]

theorem lookupTable_insert_self (table : List (String × ProgramConfig))
    (key : String) (p : ProgramConfig) :
    lookupTable (insertTable table key p) key = some p := by
  unfold lookupTable insertTable
  rw [List.find?_append]
  have hnone : (table.filter (fun q => q.1 ≠ key)).find? (fun q => q.1 == key) = none := by
    rw [List.find?_eq_none]
    intro x hx
    have := (List.mem_filter.mp hx).2
    simp at this ⊢
    exact this
  rw [hnone]
  simp [List.find?_cons]

theorem lookupTable_insert_other (table : List (String × ProgramConfig))
    (key key' : String) (p : ProgramConfig) (hne : key' ≠ key) :
    lookupTable (insertTable table key p) key' = lookupTable table key' := by
  unfold lookupTable insertTable
  rw [List.find?_append]
  rw [find?_filter_of_imp table _ _ (fun x hx => by
    simp at hx ⊢
    rw [hx]
    exact hne)]
  cases hf : table.find? (fun q => q.1 == key') with
  | some r => rfl
  | none =>
    simp [List.find?_cons, show ((key == key') = false) by
      simp
      exact fun h => hne h.symm]

/-- Embeds `load_from_directory` stores every decoded config: for each config in
the input, the table binds its name to a config from the input with that
name (the last one, when names repeat). -/
theorem load_from_directory_stores_all (configs : List ProgramConfig)
    (p : ProgramConfig) (hp : p ∈ configs) :
    ∃ q : ProgramConfig, lookupTable (load_from_directory configs) p.name = some q ∧
      q ∈ configs ∧ q.name = p.name := by
  induction configs using List.reverseRecOn with
  | nil => cases hp
  | append_singleton cs c ih =>
    have hload : load_from_directory (cs ++ [c])
        = insertTable (load_from_directory cs) c.name c := by
      unfold load_from_directory
      rw [List.foldl_append]
      rfl
    rcases List.mem_append.mp hp with hcs | hc
    · obtain ⟨q, hq, hqm, hqn⟩ := ih hcs
      by_cases hname : p.name = c.name
      · refine ⟨c, ?_, List.mem_append.mpr (Or.inr (List.mem_singleton.mpr rfl)), hname.symm⟩
        rw [hload, hname, lookupTable_insert_self]
      · refine ⟨q, ?_, List.mem_append.mpr (Or.inl hqm), hqn⟩
        rw [hload, lookupTable_insert_other _ _ _ _ hname, hq]
    · rcases List.mem_singleton.mp hc with rfl
      refine ⟨p, ?_, List.mem_append.mpr (Or.inr (List.mem_singleton.mpr rfl)), rfl⟩
      rw [hload, lookupTable_insert_self]

/-- Claim C3, counterexample: a program whose dependency graph contains a
cycle ("a" and "b" depend on each other) is not rejected by
`Engine::load_from_directory` — it is stored in the engine's program
table. -/
theorem cyclic_program_stored :
    "b" ∈ declaredDeps cyclicProgram "a" ∧
    "a" ∈ declaredDeps cyclicProgram "b" ∧
    lookupTable (load_from_directory [cyclicProgram]) "cyclic" = some cyclicProgram := by
  refine ⟨by decide, by decide, by rfl⟩

/-- Claim C3 (amended): `Engine::load_from_directory` performs no
load-time dependency validation: every successfully decoded program — also
one whose dependencies name undefined analyzers or form a cycle — is
accepted and stored in the engine's program table under its name. -/
theorem load_from_directory_no_validation (configs : List ProgramConfig)
    (p : ProgramConfig) (hp : p ∈ configs) :
    ∃ q : ProgramConfig, lookupTable (load_from_directory configs) p.name = some q ∧
      q ∈ configs ∧ q.name = p.name :=
  load_from_directory_stores_all configs p hp

/-- Claim C3, witness: the cyclic program is among the stored programs. -/
theorem load_from_directory_no_validation_witness :
    ∃ q : ProgramConfig,
      lookupTable (load_from_directory [cyclicProgram]) cyclicProgram.name = some q ∧
      q ∈ [cyclicProgram] ∧ q.name = cyclicProgram.name :=
  load_from_directory_no_validation [cyclicProgram] cyclicProgram
    (List.mem_singleton.mpr rfl)

/-- The `runnable` test is the completedness of every declared
dependency. -/
theorem runnable_eq_all (prog : ProgramConfig) (completed : List String) (name : String) :
    runnable prog completed name
      = (declaredDeps prog name).all (fun dep => completed.contains dep) := by
  unfold runnable declaredDeps
  cases hfind : (prog.analyzers.find? (fun q => q.1 == name)).map Prod.snd with
  | none => simp
  | some d =>
    cases hds : d.dependencies with
    | none => simp [hds]
    | some ds => simp [hds]

/-- A `runnable` analyzer has all declared dependencies completed. -/
theorem runnable_deps {prog : ProgramConfig} {completed : List String} {name : String}
    (hr : runnable prog completed name = true) :
    ∀ dep ∈ declaredDeps prog name, dep ∈ completed := by
  intro dep hdep
  rw [runnable_eq_all] at hr
  have := List.all_eq_true.mp hr dep hdep
  simpa using this

/-- Members of the unblocked set are runnable, hence have all declared
dependencies completed. -/
theorem unblock_mem_deps {prog : ProgramConfig} {completed blocked : List String}
    {name : String} (h : name ∈ (unblock prog completed blocked).2) :
    ∀ dep ∈ declaredDeps prog name, dep ∈ completed :=
  runnable_deps (List.mem_filter.mp h).2

theorem getElem?_map_dispatch {l : List String} {j : Nat} {ev : SchedulerEvent}
    (h : (l.map SchedulerEvent.dispatch)[j]? = some ev) :
    ∃ name ∈ l, ev = SchedulerEvent.dispatch name := by
  rw [List.getElem?_map] at h
  cases hx : l[j]? with
  | none => rw [hx] at h; cases h
  | some x =>
    rw [hx] at h
    cases h
    rcases List.getElem?_eq_some.mp hx with ⟨hlt, hget⟩
    exact ⟨x, hget ▸ List.getElem_mem hlt, rfl⟩

theorem stepComplete_trace (prog : ProgramConfig) (s : RunState)
    (name impl : String) (out : Nat) :
    (stepComplete prog s name impl out).trace
      = s.trace ++ SchedulerEvent.insert name ::
          (unblock prog (completedNames s ++ [name]) s.blocked).2.map
            SchedulerEvent.dispatch := by
  unfold stepComplete completedNames
  simp

theorem stepComplete_completedNames (prog : ProgramConfig) (s : RunState)
    (name impl : String) (out : Nat) :
    completedNames (stepComplete prog s name impl out) = completedNames s ++ [name] := by
  unfold stepComplete completedNames
  simp

theorem stepComplete_blocked (prog : ProgramConfig) (s : RunState)
    (name impl : String) (out : Nat) :
    (stepComplete prog s name impl out).blocked
      = (unblock prog (completedNames s ++ [name]) s.blocked).1 := by
  unfold stepComplete completedNames
  simp

theorem initState_invariant (prog : ProgramConfig) :
    RunInvariant prog (initState prog) := by
  constructor
  · intro i name hi dep hdep
    obtain ⟨nm, hnm, heq⟩ := getElem?_map_dispatch hi
    cases heq
    have := unblock_mem_deps hnm dep hdep
    cases this
  · intro dep
    constructor
    · intro h
      cases h
    · rintro ⟨j, hj⟩
      obtain ⟨nm, -, heq⟩ := getElem?_map_dispatch hj
      cases heq
  · intro r hr
    cases hr

theorem stepComplete_invariant {prog : ProgramConfig} {s : RunState}
    {name impl : String} {out : Nat} (inv : RunInvariant prog s) :
    RunInvariant prog (stepComplete prog s name impl out) := by
  set ub2 := (unblock prog (completedNames s ++ [name]) s.blocked).2 with hub2
  have htr := stepComplete_trace prog s name impl out
  have hcn := stepComplete_completedNames prog s name impl out
  have hL0 : ∀ j, j < s.trace.length →
      (stepComplete prog s name impl out).trace[j]? = s.trace[j]? := by
    intro j hj
    rw [htr, List.getElem?_append, if_pos hj]
  have hLmid : (stepComplete prog s name impl out).trace[s.trace.length]?
      = some (SchedulerEvent.insert name) := by
    rw [htr, List.getElem?_append_right (le_refl _), Nat.sub_self,
      List.getElem?_cons_zero]
  have hLhigh : ∀ m, (stepComplete prog s name impl out).trace[s.trace.length + 1 + m]?
      = (ub2.map SchedulerEvent.dispatch)[m]? := by
    intro m
    rw [htr, List.getElem?_append_right (by omega)]
    have : s.trace.length + 1 + m - s.trace.length = m + 1 := by omega
    rw [this, List.getElem?_cons_succ]
  have hbound : ∀ j ev, (stepComplete prog s name impl out).trace[j]? = some ev →
      j < s.trace.length ∨ j = s.trace.length ∨
        ∃ m, j = s.trace.length + 1 + m := by
    intro j ev _
    by_cases h1 : j < s.trace.length
    · exact Or.inl h1
    · by_cases h2 : j = s.trace.length
      · exact Or.inr (Or.inl h2)
      · exact Or.inr (Or.inr ⟨j - s.trace.length - 1, by omega⟩)
  constructor
  · intro i nm hi dep hdep
    rcases hbound i _ hi with hlt | heq | ⟨m, rfl⟩
    · rw [hL0 i hlt] at hi
      obtain ⟨j, hj, hins⟩ := inv.dispatch_after_deps i nm hi dep hdep
      have hjlt : j < s.trace.length := by
        rcases List.getElem?_eq_some.mp hins with ⟨h, -⟩
        omega
      exact ⟨j, hj, by rw [hL0 j hjlt]; exact hins⟩
    · subst heq
      rw [hLmid] at hi
      cases hi
    · rw [hLhigh m] at hi
      obtain ⟨nm', hnm', heq⟩ := getElem?_map_dispatch hi
      cases heq
      have hdeps := unblock_mem_deps hnm' dep hdep
      rcases List.mem_append.mp hdeps with hold | hnew
      · obtain ⟨j, hins⟩ := (inv.completed_iff_inserted dep).mp hold
        have hjlt : j < s.trace.length := by
          rcases List.getElem?_eq_some.mp hins with ⟨h, -⟩
          omega
        exact ⟨j, by omega, by rw [hL0 j hjlt]; exact hins⟩
      · rcases List.mem_singleton.mp hnew with rfl
        exact ⟨s.trace.length, by omega, hLmid⟩
  · intro dep
    rw [hcn]
    constructor
    · intro hmem
      rcases List.mem_append.mp hmem with hold | hnew
      · obtain ⟨j, hins⟩ := (inv.completed_iff_inserted dep).mp hold
        have hjlt : j < s.trace.length := by
          rcases List.getElem?_eq_some.mp hins with ⟨h, -⟩
          omega
        exact ⟨j, by rw [hL0 j hjlt]; exact hins⟩
      · rcases List.mem_singleton.mp hnew with rfl
        exact ⟨s.trace.length, hLmid⟩
    · rintro ⟨j, hj⟩
      rcases hbound j _ hj with hlt | heq | ⟨m, rfl⟩
      · rw [hL0 j hlt] at hj
        exact List.mem_append.mpr
          (Or.inl ((inv.completed_iff_inserted dep).mpr ⟨j, hj⟩))
      · subst heq
        rw [hLmid] at hj
        cases hj
        exact List.mem_append.mpr (Or.inr (List.mem_singleton.mpr rfl))
      · rw [hLhigh m] at hj
        obtain ⟨nm', -, heq⟩ := getElem?_map_dispatch hj
        cases heq
  · intro r hr
    rcases List.mem_append.mp hr with hold | hnew
    · exact inv.outputs r hold
    · rcases List.mem_singleton.mp hnew with rfl
      exact ⟨out, rfl⟩

theorem step_invariant {prog : ProgramConfig} {analyze : String → Option Nat}
    {s s' : RunState} (inv : RunInvariant prog s) (hstep : Step prog analyze s s') :
    RunInvariant prog s' := by
  cases hstep with
  | complete hf hr ho => exact stepComplete_invariant inv
  | failure hf hr ho => exact ⟨inv.1, inv.2, inv.3⟩

theorem reachable_invariant {prog : ProgramConfig} {analyze : String → Option Nat}
    {s : RunState} (h : Reachable prog analyze s) : RunInvariant prog s := by
  induction h with
  | refl => exact initState_invariant prog
  | tail hreach hstep ih => exact step_invariant ih hstep

theorem findSome?_isSome_iff {α β : Type} (f : α → Option β) (l : List α) :
    (l.findSome? f).isSome = true ↔ ∃ a ∈ l, (f a).isSome = true := by
  induction l with
  | nil => simp [List.findSome?]
  | cons x xs ih =>
    rw [List.findSome?_cons]
    cases hf : f x with
    | some b => simp [hf]
    | none => simp [hf, ih]

/-- Claim C2: for every reachable coordinator state of a program run,
(1) whenever analyzer `A` was dispatched to a worker at trace position `i`
and declares `B` as a dependency, `B`'s completed record was inserted into
the completed map at a strictly earlier trace position; and (2) no step
moves an analyzer out of the blocked set while one of its declared
dependencies is absent from the completed map: when `A` leaves `blocked`,
every declared dependency is in the completed map of the resulting
state. -/
theorem dispatch_strictly_after_dependency_insert (prog : ProgramConfig)
    (analyze : String → Option Nat) (s : RunState) (h : Reachable prog analyze s) :
    (∀ (i : Nat) (name : String), s.trace[i]? = some (SchedulerEvent.dispatch name) →
      ∀ dep ∈ declaredDeps prog name,
        ∃ j : Nat, j < i ∧ s.trace[j]? = some (SchedulerEvent.insert dep))
    ∧ (∀ s' : RunState, Step prog analyze s s' →
        ∀ name ∈ s.blocked, name ∉ s'.blocked →
          ∀ dep ∈ declaredDeps prog name, dep ∈ completedNames s') := by
  refine ⟨(reachable_invariant h).dispatch_after_deps, ?_⟩
  intro s' hstep name hb hnb dep hdep
  cases hstep with
  | @complete nm out hf hr ho =>
    rw [stepComplete_blocked] at hnb
    have hrun : runnable prog (completedNames s ++ [nm]) name = true := by
      by_contra hfalse
      exact hnb (List.mem_filter.mpr ⟨hb, by simp [hfalse]⟩)
    have := runnable_deps hrun dep hdep
    rwa [← stepComplete_completedNames prog s nm (implOf prog nm) out] at this
  | failure hf hr ho => exact absurd hb hnb

/-- Claim C9: in every reachable coordinator state, every record in the
completed map finished its run successfully and holds a computed output
(`output` is `Some`), and `Context::get_dependency_output` returns `Some`
exactly when some analyzer in the completed map is an instance of the
requested implementation. -/
theorem completed_outputs_and_lookup (prog : ProgramConfig)
    (analyze : String → Option Nat) (s : RunState) (h : Reachable prog analyze s) :
    (∀ r ∈ s.completed, ∃ v, r.output = some v)
    ∧ ∀ impl : String, (get_dependency_output s.completed impl).isSome = true ↔
        ∃ r ∈ s.completed, r.«implementation» = impl := by
  have inv := reachable_invariant h
  refine ⟨inv.outputs, fun impl => ?_⟩
  rw [get_dependency_output, findSome?_isSome_iff]
  constructor
  · rintro ⟨r, hr, hsome⟩
    refine ⟨r, hr, ?_⟩
    by_contra hne
    rw [if_neg hne] at hsome
    cases hsome
  · rintro ⟨r, hr, himpl⟩
    refine ⟨r, hr, ?_⟩
    rw [if_pos himpl]
    obtain ⟨v, hv⟩ := inv.outputs r hr
    rw [hv]
    rfl

theorem demoState_reachable : Reachable demoProgram demoOracle demoState :=
  Relation.ReflTransGen.tail Relation.ReflTransGen.refl
    (Step.complete rfl (by decide) rfl)

/-- Claim C2, witness: in the demo run, "a" (depending on "b") is dispatched
at trace position 2, strictly after the insertion of "b"'s record. -/
theorem dispatch_strictly_after_dependency_insert_witness :
    ∃ j : Nat, j < 2 ∧ demoState.trace[j]? = some (SchedulerEvent.insert "b") :=
  (dispatch_strictly_after_dependency_insert demoProgram demoOracle demoState
    demoState_reachable).1 2 "a" (by rfl) "b" (by decide)

/-- Claim C9, witness: in the demo run, the gear analyzer's output is
available through `get_dependency_output`. -/
theorem completed_outputs_and_lookup_witness :
    (get_dependency_output demoState.completed "GearAnalyzer").isSome = true :=
  ((completed_outputs_and_lookup demoProgram demoOracle demoState
    demoState_reachable).2 "GearAnalyzer").mpr
    ⟨⟨"b", "GearAnalyzer", some 0⟩, by decide, rfl⟩

end Blert
